import Mathlib

/-!
# NDStorage (NDTiff) — verification of spec claims against the source

A shallow embedding of the parts of the `micro-manager/NDStorage` Python
repository that the frozen claims C1–C10 are about, together with theorems
settling each claim.

Conventions of the embedding:
* Python `bytes` / `bytearray` buffers are `List Nat` (one `Nat` per byte;
  writers only produce values `< 256`).
* Python exceptions are an explicit `PyErr` error type; fallible code
  returns `Except PyErr _` or `Option _`.
* File offsets, lengths and struct fields are `Nat` with explicit
  `% 2^32` / bound hypotheses where the 4-byte encoding matters.
* The host is little-endian (the Python code packs with `'<'` or native
  `'I'`, and the repository's reader enforces that the byte-order mark
  matches the host).
-/

set_option maxRecDepth 8000

namespace NDStorage

/-- Python exception kinds that the embedded code can raise. -/
inductive PyErr where
  | attributeError
  | valueError
  | runtimeError (msg : String)
  | keyError (key : String)
  | indexError
  | structError
  | typeError
deriving DecidableEq

/-! ## §1 Constants from `ndstorage/ndtiff_file.py` -/

/-- `BYTES_PER_GIG = 1073741824` (ndtiff_file.py line 20). -/
def BYTES_PER_GIG : Nat := 1073741824

/-- `MAX_FILE_SIZE = 4 * BYTES_PER_GIG` (ndtiff_file.py line 21). -/
def MAX_FILE_SIZE : Nat := 4 * BYTES_PER_GIG

/-- `ENTRIES_PER_IFD = 13` (ndtiff_file.py line 23). -/
def ENTRIES_PER_IFD : Nat := 13

/-! ## §2 Pixel-buffer model

`write_image` / `has_space_to_write` accept either numpy arrays or a
`bytearray`.  We model the four buffer shapes the code distinguishes:
a 2-D `uint16` array, a 2-D `uint8` array, a 3-D `uint8` array whose last
dimension is 3 (RGB), and a flat `bytearray`.  A `u16mat` carries its
element rows so the writer can serialize them. -/

inductive PixelArr where
  /-- 2-D `uint16` ndarray, given as its rows (each element `< 2^16`). -/
  | u16mat (rows : List (List Nat))
  /-- 2-D `uint8` ndarray (only its shape matters for the claims). -/
  | u8mat (h w : Nat)
  /-- 3-D `uint8` ndarray with `shape[2] == 3`. -/
  | rgb8 (h w : Nat)
  /-- Python `bytearray` of the given contents. -/
  | byteArr (data : List Nat)
deriving DecidableEq

namespace PixelArr

/-- `pixels.ndim`; a `bytearray` has no `ndim` attribute (AttributeError). -/
def ndim : PixelArr → Except PyErr Nat
  | u16mat _ => .ok 2
  | u8mat _ _ => .ok 2
  | rgb8 _ _ => .ok 3
  | byteArr _ => .error .attributeError

/-- Python `len(pixels)`: `shape[0]` for an ndarray, byte count for a
`bytearray`. -/
def pyLen : PixelArr → Nat
  | u16mat rows => rows.length
  | u8mat h _ => h
  | rgb8 h _ => h
  | byteArr d => d.length

/-- `pixels.size * 2` for a uint16 array: number of elements times two. -/
def u16ByteCount (rows : List (List Nat)) : Nat :=
  2 * (rows.map List.length).sum

end PixelArr

/-- `rgb = pixels.ndim == 3 and pixels.shape[2] == 3`
(ndtiff_file.py line 81).  In the model the only 3-D arrays have
`shape[2] == 3`, so this reduces to the `ndim` test. -/
def isRgbCheck (p : PixelArr) : Except PyErr Bool := do
  let n ← p.ndim
  return n == 3

/-- `SingleNDTiffWriter._bytes_per_image_pixels` (ndtiff_file.py
lines 271–280): RGB buffers report `len(pixels) * 3 // 4`; a `bytearray`
its length; a `uint16` ndarray `size * 2`; anything else raises
`RuntimeError("unknown pixel type")`. -/
def bytes_per_image_pixels (p : PixelArr) (rgb : Bool) : Except PyErr Nat :=
  if rgb then .ok (p.pyLen * 3 / 4)
  else match p with
    | .byteArr d => .ok d.length
    | .u16mat rows => .ok (PixelArr.u16ByteCount rows)
    | _ => .error (.runtimeError "unknown pixel type")

/-- `SingleNDTiffWriter.has_space_to_write(pixels, metadata)`
(ndtiff_file.py lines 80–91), parameterized by the writer's current file
position `tell` and the metadata byte length `mdLen` (`len(metadata)`).
`size = md_length + IFD_size + bytes_per_pixels + extra_padding + tell`
with `IFD_size = ENTRIES_PER_IFD * 12 + 4 + 16` and
`extra_padding = 5000000`; returns `size < MAX_FILE_SIZE`. -/
def has_space_to_write (tell : Nat) (p : PixelArr) (mdLen : Nat) :
    Except PyErr Bool := do
  let rgb ← isRgbCheck p
  let IFD_size := ENTRIES_PER_IFD * 12 + 4 + 16
  let extra_padding := 5000000
  let bpp ← bytes_per_image_pixels p rgb
  let size := mdLen + IFD_size + bpp + extra_padding + tell
  return decide (size < MAX_FILE_SIZE)

/-! ### C3: the `has_space_to_write` threshold -/

/-- **C3** (amended): for a 2-D `uint16` pixel array,
`has_space_to_write` returns `False` iff
`current_offset + md_length + IFD_size(13·12+4+16) + pixel_bytes +
5,000,000 ≥ MAX_FILE_SIZE` — the slack constant in the source is
`extra_padding = 5000000` bytes (5 MB), not 5 MiB as the claim states. -/
theorem C3_has_space_to_write_threshold (tell mdLen : Nat)
    (rows : List (List Nat)) :
    has_space_to_write tell (.u16mat rows) mdLen
      = .ok (decide (tell + mdLen + (ENTRIES_PER_IFD * 12 + 4 + 16)
          + PixelArr.u16ByteCount rows + 5000000 < MAX_FILE_SIZE)) := by
  simp only [has_space_to_write, isRgbCheck, PixelArr.ndim,
    bytes_per_image_pixels, pure, bind, Except.bind, Except.pure,
    ENTRIES_PER_IFD, MAX_FILE_SIZE, BYTES_PER_GIG]
  norm_num
  omega

/-- **C3** counterexample to the claim as stated: at file position
4289724240 with an empty `uint16` array and empty metadata, the code
returns `True` (`.ok true`), even though
`position + md_length + IFD_size + pixel_bytes + 5 MiB ≥ MAX_FILE_SIZE =
4 GiB`, where the claim requires the result to be `False`. -/
theorem C3_counterexample :
    has_space_to_write 4289724240 (.u16mat []) 0 = .ok true ∧
    4289724240 + 0 + (13 * 12 + 4 + 16) + 0 + 5 * 1024 * 1024
      ≥ 4 * 1073741824 := by
  constructor
  · rfl
  · norm_num

/-! ## §3 Axis values and the axis tables (`ndstorage_base.py`)

Axis coordinates map axis names to values that are either Python `int`
or `str`.  Python dicts are modeled as association lists in insertion
order (`alookup` / `aset` mirror `d[k]` and `d[k] = v`); `SortedSet` is
modeled as a strictly ascending list with ordered insertion. -/

/-- An axis value: a Python `int` or `str`. -/
inductive AxVal where
  | ival (n : Int)
  | sval (s : String)
deriving DecidableEq

/-- The Python type of an axis value (`int` or `str`). -/
inductive AxType where
  | tInt
  | tStr
deriving DecidableEq

/-- `type(position)` for an axis value. -/
def AxVal.typeOf : AxVal → AxType
  | .ival _ => .tInt
  | .sval _ => .tStr

/-- Python `<` on strings: lexicographic comparison of the character
sequences (code-point order). -/
def strLt : List Char → List Char → Bool
  | [], [] => false
  | [], _ :: _ => true
  | _ :: _, [] => false
  | c :: cs, d :: ds =>
    if c < d then true else if d < c then false else strLt cs ds

theorem strLt_total : ∀ a b : List Char, strLt a b = false → a ≠ b →
    strLt b a = true := by
  intro a
  induction a with
  | nil =>
    intro b h1 h2
    cases b with
    | nil => exact absurd rfl h2
    | cons d ds => simp [strLt] at h1
  | cons c cs ih =>
    intro b h1 h2
    cases b with
    | nil => simp [strLt]
    | cons d ds =>
      simp only [strLt] at h1 ⊢
      rcases lt_trichotomy c d with hcd | hcd | hcd
      · rw [if_pos hcd] at h1
        exact absurd h1 (by simp)
      · subst hcd
        rw [if_neg (lt_irrefl c), if_neg (lt_irrefl c)] at h1 ⊢
        exact ih ds h1 (fun he => h2 (by rw [he]))
      · rw [if_pos hcd]

theorem strLt_trans : ∀ a b c : List Char, strLt a b = true →
    strLt b c = true → strLt a c = true := by
  intro a
  induction a with
  | nil =>
    intro b c h1 h2
    cases b with
    | nil => simp [strLt] at h1
    | cons y ys =>
      cases c with
      | nil => simp [strLt] at h2
      | cons z zs => simp [strLt]
  | cons x xs ih =>
    intro b c h1 h2
    cases b with
    | nil => simp [strLt] at h1
    | cons y ys =>
      cases c with
      | nil => simp [strLt] at h2
      | cons z zs =>
        simp only [strLt] at h1 h2 ⊢
        rcases lt_trichotomy x y with hxy | hxy | hxy
        · rcases lt_trichotomy y z with hyz | hyz | hyz
          · rw [if_pos (lt_trans hxy hyz)]
          · subst hyz
            rw [if_pos hxy]
          · rw [if_neg (not_lt.mpr (le_of_lt hyz)), if_pos hyz] at h2
            exact absurd h2 (by simp)
        · subst hxy
          rcases lt_trichotomy x z with hyz | hyz | hyz
          · rw [if_pos hyz]
          · subst hyz
            rw [if_neg (lt_irrefl x), if_neg (lt_irrefl x)] at h1 h2 ⊢
            exact ih ys zs h1 h2
          · rw [if_neg (not_lt.mpr (le_of_lt hyz)), if_pos hyz] at h2
            exact absurd h2 (by simp)
        · rw [if_neg (not_lt.mpr (le_of_lt hxy)), if_pos hxy] at h1
          exact absurd h1 (by simp)

/-- The strict order used by `sortedcontainers.SortedSet` on axis
values: Python `<` on ints, lexicographic `<` on strings.  Mixed
comparisons never occur on one axis (the type check in `_update_axes`
runs first); they are given an arbitrary total order here. -/
def axlt : AxVal → AxVal → Bool
  | .ival m, .ival n => decide (m < n)
  | .sval s, .sval t => strLt s.data t.data
  | .ival _, .sval _ => true
  | .sval _, .ival _ => false

theorem axlt_total (a b : AxVal) (h1 : axlt a b = false) (h2 : a ≠ b) :
    axlt b a = true := by
  cases a with
  | ival m =>
    cases b with
    | ival n =>
      simp only [axlt, decide_eq_false_iff_not, not_lt] at h1
      simp only [axlt, decide_eq_true_eq]
      rcases lt_or_eq_of_le h1 with h | h
      · exact h
      · exact absurd (by rw [h]) h2
    | sval s => simp [axlt] at h1
  | sval s =>
    cases b with
    | ival n => simp [axlt]
    | sval t =>
      simp only [axlt] at h1 ⊢
      refine strLt_total _ _ h1 (fun he => h2 ?_)
      cases s; cases t
      exact congrArg (AxVal.sval ∘ String.mk) he

theorem axlt_trans (a b c : AxVal) (h1 : axlt a b = true)
    (h2 : axlt b c = true) : axlt a c = true := by
  cases a <;> cases b <;> cases c <;>
    simp only [axlt, decide_eq_true_eq] at * <;>
    first
      | exact lt_trans h1 h2
      | exact strLt_trans _ _ _ h1 h2
      | trivial

/-- Generic association-list lookup (Python `d[k]` that may `KeyError`,
or the `k in d` test when combined with `Option.isSome`). -/
def alookup {κ β : Type} [DecidableEq κ] : List (κ × β) → κ → Option β
  | [], _ => none
  | (k', v') :: rest, k => if k' = k then some v' else alookup rest k

/-- Python `d[k] = v` on an insertion-ordered dict: updates the value in
place if the key exists, otherwise appends the pair. -/
def aset {κ β : Type} [DecidableEq κ] : List (κ × β) → κ → β → List (κ × β)
  | [], k, v => [(k, v)]
  | (k', v') :: rest, k, v =>
    if k' = k then (k, v) :: rest else (k', v') :: aset rest k v

theorem alookup_aset_self {κ β : Type} [DecidableEq κ] (l : List (κ × β))
    (k : κ) (v : β) : alookup (aset l k v) k = some v := by
  induction l with
  | nil => simp [aset, alookup]
  | cons p rest ih =>
    by_cases h : p.1 = k
    · simp [aset, alookup, h]
    · simp [aset, alookup, h, ih]

theorem alookup_aset_ne {κ β : Type} [DecidableEq κ] (l : List (κ × β))
    (k k' : κ) (v : β) (h : k ≠ k') : alookup (aset l k v) k' = alookup l k' := by
  induction l with
  | nil => simp [aset, alookup, h]
  | cons p rest ih =>
    obtain ⟨a, b⟩ := p
    by_cases hp : a = k
    · subst hp
      simp [aset, alookup, h]
    · simp [aset, alookup, hp, ih]

/-- `SortedSet.add`: insert into a strictly ascending list, keeping
distinct values only. -/
def ssAdd (v : AxVal) : List AxVal → List AxVal
  | [] => [v]
  | x :: xs =>
    if axlt v x then v :: x :: xs
    else if v = x then x :: xs
    else x :: ssAdd v xs

theorem ssAdd_mem {z v : AxVal} {l : List AxVal} (h : z ∈ ssAdd v l) :
    z = v ∨ z ∈ l := by
  induction l with
  | nil => simpa [ssAdd] using h
  | cons x xs ih =>
    simp only [ssAdd] at h
    by_cases h1 : axlt v x
    · simp only [if_pos h1, List.mem_cons] at h
      rcases h with h | h | h
      · exact Or.inl h
      · exact Or.inr (by simp [h])
      · exact Or.inr (List.mem_cons_of_mem _ h)
    · by_cases h2 : v = x
      · simp only [if_neg h1, if_pos h2, List.mem_cons] at h
        rcases h with h | h
        · exact Or.inr (by simp [h])
        · exact Or.inr (List.mem_cons_of_mem _ h)
      · simp only [if_neg h1, if_neg h2, List.mem_cons] at h
        rcases h with h | h
        · exact Or.inr (by simp [h])
        · rcases ih h with h | h
          · exact Or.inl h
          · exact Or.inr (List.mem_cons_of_mem _ h)

/-- Ordered insertion preserves strict ascending sortedness. -/
theorem ssAdd_pairwise (v : AxVal) (l : List AxVal)
    (h : l.Pairwise (fun a b => axlt a b = true)) :
    (ssAdd v l).Pairwise (fun a b => axlt a b = true) := by
  induction l with
  | nil => simp [ssAdd]
  | cons x xs ih =>
    rcases List.pairwise_cons.mp h with ⟨hx, hxs⟩
    simp only [ssAdd]
    by_cases h1 : axlt v x
    · simp only [if_pos h1]
      refine List.pairwise_cons.mpr ⟨?_, h⟩
      intro z hz
      rcases List.mem_cons.mp hz with hz | hz
      · subst hz; exact h1
      · exact axlt_trans v x z h1 (hx z hz)
    · by_cases h2 : v = x
      · simp only [if_neg h1, if_pos h2]
        exact h
      · simp only [if_neg h1, if_neg h2]
        refine List.pairwise_cons.mpr ⟨?_, ih hxs⟩
        intro z hz
        rcases ssAdd_mem hz with hz | hz
        · rw [hz]
          exact axlt_total v x (by simpa using h1) h2
        · exact hx z hz

/-- The mutable axis tables of `NDStorageBase`: `axes_types`, `axes`
and `_string_axes_values`, all insertion-ordered dicts. -/
structure AxesTables where
  axes_types : List (String × AxType)
  axes : List (String × List AxVal)
  string_axes_values : List (String × List AxVal)
deriving DecidableEq

/-- The empty tables of a fresh dataset. -/
def emptyTables : AxesTables := ⟨[], [], []⟩

/-- The first loop of `NDStorageBase._update_axes` (ndstorage_base.py
lines 588–597): walk the coordinates, record the type of every new axis
name, and raise `RuntimeError` on a kind conflict.  The returned table
reflects the mutations performed before the raise. -/
def updateTypesLoop (types : List (String × AxType)) :
    List (String × AxVal) → List (String × AxType) × Option PyErr
  | [] => (types, none)
  | (name, v) :: rest =>
    match alookup types name with
    | none => updateTypesLoop (aset types name v.typeOf) rest
    | some t =>
      if v.typeOf = t then updateTypesLoop types rest
      else (types, some (.runtimeError
        "cant mix String and Integer values along an axis"))

/-- The second loop of `_update_axes` (lines 600–604): create a fresh
`SortedSet` for each unseen axis (re-recording its type) and add the
value. -/
def updateAxesLoop (st : AxesTables) :
    List (String × AxVal) → AxesTables
  | [] => st
  | (name, v) :: rest =>
    let st1 :=
      match alookup st.axes name with
      | some _ => st
      | none =>
        { st with axes := aset st.axes name [],
                  axes_types := aset st.axes_types name v.typeOf }
    let cur := (alookup st1.axes name).getD []
    updateAxesLoop { st1 with axes := aset st1.axes name (ssAdd v cur) } rest

/-- First half of `_parse_string_axes_values` (lines 619–622): give
every string-typed axis an (initially empty) value list. -/
def ensureStringLists (types : List (String × AxType))
    (sv : List (String × List AxVal)) : List (String × List AxVal) :=
  types.foldl
    (fun acc p =>
      match p with
      | (name, AxType.tStr) =>
        match alookup acc name with
        | some _ => acc
        | none => aset acc name []
      | _ => acc) sv

/-- Second half of `_parse_string_axes_values` (lines 628–632): append
each coordinate value not seen before on a tracked string axis, keeping
first-observed order. -/
def appendStringValues (sv : List (String × List AxVal))
    (coords : List (String × AxVal)) : List (String × List AxVal) :=
  coords.foldl
    (fun acc p =>
      match alookup acc p.1 with
      | none => acc
      | some l => if p.2 ∈ l then acc else aset acc p.1 (l ++ [p.2]))
    sv

/-- `NDStorageBase._parse_string_axes_values` (lines 608–632) on one
coordinate dict. -/
def parseStringAxesValues (st : AxesTables)
    (coords : List (String × AxVal)) : AxesTables :=
  let sv := appendStringValues
    (ensureStringLists st.axes_types st.string_axes_values) coords
  { st with string_axes_values := sv }

/-- `NDStorageBase._update_axes` (ndstorage_base.py lines 583–606): type
check (possibly raising, with the type table partially updated and the
value tables untouched), then value insertion, then string-axis
bookkeeping. -/
def update_axes (st : AxesTables) (coords : List (String × AxVal)) :
    AxesTables × Option PyErr :=
  match updateTypesLoop st.axes_types coords with
  | (types1, some e) => ({ st with axes_types := types1 }, some e)
  | (types1, none) =>
    let st1 := updateAxesLoop { st with axes_types := types1 } coords
    (parseStringAxesValues st1 coords, none)

/-- A sequence of successful `put_image`-driven `_update_axes` calls;
`none` when some call raised. -/
def applyPuts (st : AxesTables) :
    List (List (String × AxVal)) → Option AxesTables
  | [] => some st
  | c :: cs =>
    match update_axes st c with
    | (st', none) => applyPuts st' cs
    | (_, some _) => none

/-! ### C4: ordering of the values stored in `axes[name]` -/

/-- Every value list in an `axes` dict is strictly ascending in the
`SortedSet` order `axlt`. -/
def SortedDict (d : List (String × List AxVal)) : Prop :=
  ∀ name l, alookup d name = some l →
    l.Pairwise (fun a b => axlt a b = true)

theorem sortedDict_aset (d : List (String × List AxVal)) (name : String)
    (l : List AxVal) (hd : SortedDict d)
    (hl : l.Pairwise (fun a b => axlt a b = true)) :
    SortedDict (aset d name l) := by
  intro n' l' h
  by_cases hn : name = n'
  · subst hn
    rw [alookup_aset_self] at h
    cases h
    exact hl
  · rw [alookup_aset_ne _ _ _ _ hn] at h
    exact hd n' l' h

theorem updateAxesLoop_sorted (coords : List (String × AxVal)) :
    ∀ st : AxesTables, SortedDict st.axes →
      SortedDict (updateAxesLoop st coords).axes := by
  induction coords with
  | nil => intro st h; simpa [updateAxesLoop] using h
  | cons p rest ih =>
    intro st h
    obtain ⟨name, v⟩ := p
    simp only [updateAxesLoop]
    cases hl : alookup st.axes name with
    | some l =>
      simp only [hl, Option.getD_some]
      exact ih _ (sortedDict_aset _ _ _ h (ssAdd_pairwise v l (h name l hl)))
    | none =>
      simp only [hl, alookup_aset_self, Option.getD_some]
      refine ih _ (sortedDict_aset _ _ _ ?_ (ssAdd_pairwise v [] (by simp)))
      exact sortedDict_aset _ _ _ h (by simp)

theorem update_axes_sorted (st : AxesTables) (coords : List (String × AxVal))
    (h : SortedDict st.axes) : SortedDict (update_axes st coords).1.axes := by
  unfold update_axes
  cases hu : updateTypesLoop st.axes_types coords with
  | mk types1 err =>
    cases err with
    | none =>
      simpa [parseStringAxesValues] using
        updateAxesLoop_sorted coords { st with axes_types := types1 } h
    | some e => simpa using h

theorem applyPuts_sorted (cs : List (List (String × AxVal))) :
    ∀ st : AxesTables, SortedDict st.axes →
      ∀ st', applyPuts st cs = some st' → SortedDict st'.axes := by
  induction cs with
  | nil =>
    intro st h st' hst
    simp only [applyPuts, Option.some.injEq] at hst
    exact hst ▸ h
  | cons c rest ih =>
    intro st h st' hst
    simp only [applyPuts] at hst
    cases hc : update_axes st c with
    | mk st1 err =>
      rw [hc] at hst
      cases err with
      | none =>
        have := update_axes_sorted st c h
        rw [hc] at this
        exact ih st1 this st' hst
      | some e => simp at hst

/-- **C4** (amended): after any sequence of successful
`put_image`-driven `_update_axes` calls starting from empty tables, the
distinct values stored in `axes[name]` are strictly ascending in the
`SortedSet` order for *every* axis — numerically ascending for
integer-valued axes and lexicographically ascending for string-valued
axes.  (First-observed insertion order is kept only in
`_string_axes_values`, not in `axes`.) -/
theorem C4_axes_values_sorted (cs : List (List (String × AxVal)))
    (st' : AxesTables) (h : applyPuts emptyTables cs = some st')
    (name : String) (l : List AxVal)
    (hl : alookup st'.axes name = some l) :
    l.Pairwise (fun a b => axlt a b = true) :=
  applyPuts_sorted cs emptyTables (fun n l' h' => by simp [emptyTables, alookup] at h')
    st' h name l hl

/-- **C4** witness: the sorted-axes theorem applied to the concrete
two-image sequence `{time: 3}` then `{time: 1}`. -/
theorem C4_axes_values_sorted_witness :
    ([AxVal.ival 1, AxVal.ival 3]).Pairwise (fun a b => axlt a b = true) :=
  C4_axes_values_sorted
    [[("time", AxVal.ival 3)], [("time", AxVal.ival 1)]]
    ⟨[("time", AxType.tInt)], [("time", [AxVal.ival 1, AxVal.ival 3])], []⟩
    (by rfl) "time" [AxVal.ival 1, AxVal.ival 3] (by rfl)

/-- **C4** counterexample to the claim as stated: writing string
positions in the first-observed order `Pos2, Pos0, Pos1` leaves
`axes["position"] = [Pos0, Pos1, Pos2]` (lexicographically sorted by the
`SortedSet`), which differs from the insertion order the claim
requires. -/
theorem C4_counterexample :
    (applyPuts emptyTables
        [[("position", AxVal.sval "Pos2")], [("position", AxVal.sval "Pos0")],
         [("position", AxVal.sval "Pos1")]]).map
        (fun st => alookup st.axes "position")
      = some (some [AxVal.sval "Pos0", AxVal.sval "Pos1", AxVal.sval "Pos2"])
    ∧ [AxVal.sval "Pos0", AxVal.sval "Pos1", AxVal.sval "Pos2"]
      ≠ [AxVal.sval "Pos2", AxVal.sval "Pos0", AxVal.sval "Pos1"] := by
  constructor
  · rfl
  · decide

/-! ### C5: canonical axis ordering of the `axes` dict -/

/-- `_AXIS_ORDER` / `_get_axis_order_key` (ndstorage_base.py lines
24–36): canonical precedence of axis names; any name outside the table
gets channel's precedence 3. -/
def _get_axis_order_key (name : String) : Nat :=
  if name = "row" then 7
  else if name = "column" then 6
  else if name = "position" then 5
  else if name = "time" then 4
  else if name = "channel" then 3
  else if name = "z" then 2
  else 3

/-- One step of a stable descending insertion sort: `x` is placed after
every already-present element whose key is `≥ k x`. -/
def insertDescBy {α : Type} (k : α → Nat) (x : α) : List α → List α
  | [] => [x]
  | y :: ys => if k y < k x then x :: y :: ys else y :: insertDescBy k x ys

/-- Model of Python `sorted(l, key=k, reverse=True)`: the stable
descending sort (stable sorts are extensionally unique, so this
insertion sort is the faithful model of CPython's stable sort). -/
def sortDescBy {α : Type} (k : α → Nat) (l : List α) : List α :=
  l.foldl (fun acc x => insertDescBy k x acc) []

theorem insertDescBy_perm {α : Type} (k : α → Nat) (x : α) :
    ∀ l : List α, List.Perm (insertDescBy k x l) (x :: l) := by
  intro l
  induction l with
  | nil => simp [insertDescBy]
  | cons y ys ih =>
    simp only [insertDescBy]
    by_cases hk : k y < k x
    · rw [if_pos hk]
    · rw [if_neg hk]
      exact (ih.cons y).trans (List.Perm.swap x y ys)

theorem insertDescBy_pairwise {α : Type} (k : α → Nat) (x : α) :
    ∀ l : List α, l.Pairwise (fun a b => k b ≤ k a) →
      (insertDescBy k x l).Pairwise (fun a b => k b ≤ k a) := by
  intro l
  induction l with
  | nil => simp [insertDescBy]
  | cons y ys ih =>
    intro h
    rcases List.pairwise_cons.mp h with ⟨hy, hys⟩
    simp only [insertDescBy]
    by_cases hk : k y < k x
    · rw [if_pos hk]
      refine List.pairwise_cons.mpr ⟨?_, h⟩
      intro z hz
      rcases List.mem_cons.mp hz with hz | hz
      · exact hz ▸ le_of_lt hk
      · exact le_trans (hy z hz) (le_of_lt hk)
    · rw [if_neg hk]
      refine List.pairwise_cons.mpr ⟨?_, ih hys⟩
      intro z hz
      have hz' : z ∈ x :: ys := (insertDescBy_perm k x ys).mem_iff.mp hz
      rcases List.mem_cons.mp hz' with hz' | hz'
      · exact hz' ▸ not_lt.mp hk
      · exact hy z hz'

theorem insertDescBy_filter {α : Type} (k : α → Nat) (x : α) (m : Nat) :
    ∀ l : List α, l.Pairwise (fun a b => k b ≤ k a) →
      (insertDescBy k x l).filter (fun z => k z == m)
        = if k x = m then l.filter (fun z => k z == m) ++ [x]
          else l.filter (fun z => k z == m) := by
  intro l
  induction l with
  | nil =>
    intro _
    by_cases hm : k x = m <;> simp [insertDescBy, List.filter_cons, hm]
  | cons y ys ih =>
    intro h
    rcases List.pairwise_cons.mp h with ⟨hy, hys⟩
    simp only [insertDescBy]
    by_cases hk : k y < k x
    · rw [if_pos hk]
      by_cases hm : k x = m
      · have hnil : (y :: ys).filter (fun z => k z == m) = [] := by
          refine List.filter_eq_nil_iff.mpr ?_
          intro z hz
          have hzy : k z ≤ k y := by
            rcases List.mem_cons.mp hz with hz | hz
            · exact hz ▸ le_refl _
            · exact hy z hz
          have : k z ≠ m := by omega
          simpa using this
        simp [List.filter_cons, hm, hnil]
      · simp [List.filter_cons, hm]
    · rw [if_neg hk]
      have hrec := ih hys
      by_cases hym : k y = m <;> by_cases hm : k x = m <;>
        simp [List.filter_cons, hym, hm, hrec]

theorem foldlInsert_pairwise {α : Type} (k : α → Nat) :
    ∀ (l acc : List α), acc.Pairwise (fun a b => k b ≤ k a) →
      (l.foldl (fun acc x => insertDescBy k x acc) acc).Pairwise
        (fun a b => k b ≤ k a) := by
  intro l
  induction l with
  | nil => intro acc h; simpa using h
  | cons x xs ih =>
    intro acc h
    simp only [List.foldl_cons]
    exact ih _ (insertDescBy_pairwise k x acc h)

theorem foldlInsert_perm {α : Type} (k : α → Nat) :
    ∀ (l acc : List α),
      List.Perm (l.foldl (fun acc x => insertDescBy k x acc) acc) (acc ++ l) := by
  intro l
  induction l with
  | nil => intro acc; simp
  | cons x xs ih =>
    intro acc
    simp only [List.foldl_cons]
    refine (ih (insertDescBy k x acc)).trans ?_
    refine (((insertDescBy_perm k x acc).append_right xs).trans ?_)
    exact List.perm_middle.symm

theorem foldlInsert_filter {α : Type} (k : α → Nat) (m : Nat) :
    ∀ (l acc : List α), acc.Pairwise (fun a b => k b ≤ k a) →
      (l.foldl (fun acc x => insertDescBy k x acc) acc).filter
          (fun z => k z == m)
        = acc.filter (fun z => k z == m) ++ l.filter (fun z => k z == m) := by
  intro l
  induction l with
  | nil => intro acc _; simp
  | cons x xs ih =>
    intro acc h
    simp only [List.foldl_cons]
    rw [ih _ (insertDescBy_pairwise k x acc h),
      insertDescBy_filter k x m acc h]
    by_cases hm : k x = m <;> simp [List.filter_cons, hm]

/-- `NDStorageBase._parse_image_keys` (ndstorage_base.py lines 635–646)
and the identical loop in `NDTiffDataset.__init__`
(ndtiff_dataset.py lines 93–102): populate axis tables from the index
keys (the inner loop is the same `SortedSet` accumulation as
`updateAxesLoop`), then sort the `axes` dict by `_get_axis_order_key`
descending with Python's stable `sorted`. -/
def parse_image_keys (st : AxesTables)
    (image_keys : List (List (String × AxVal))) : AxesTables :=
  let st1 := image_keys.foldl (fun acc key => updateAxesLoop acc key) st
  { st1 with axes := sortDescBy (fun p => _get_axis_order_key p.1) st1.axes }

/-- **C5**: after `_parse_image_keys`, the entries of the `axes` dict
are a permutation of the accumulated (first-appearance-ordered) entries,
sorted descending by the canonical precedence
`row=7, column=6, position=5, time=4, channel=3, z=2` with unknown
names at precedence 3, and entries of equal precedence keep their prior
relative order (stability, expressed by filter preservation at every
precedence level). -/
theorem C5_axes_canonical_order (st : AxesTables)
    (image_keys : List (List (String × AxVal))) :
    ((parse_image_keys st image_keys).axes).Pairwise
        (fun a b => _get_axis_order_key b.1 ≤ _get_axis_order_key a.1)
    ∧ List.Perm (parse_image_keys st image_keys).axes
        (image_keys.foldl (fun acc key => updateAxesLoop acc key) st).axes
    ∧ ∀ m, (parse_image_keys st image_keys).axes.filter
          (fun p => _get_axis_order_key p.1 == m)
        = ((image_keys.foldl (fun acc key => updateAxesLoop acc key) st).axes).filter
          (fun p => _get_axis_order_key p.1 == m) := by
  refine ⟨?_, ?_, ?_⟩
  · exact foldlInsert_pairwise _ _ [] (by simp)
  · simpa [parse_image_keys, sortDescBy] using
      foldlInsert_perm (fun p => _get_axis_order_key p.1)
        (image_keys.foldl (fun acc key => updateAxesLoop acc key) st).axes []
  · intro m
    simpa [parse_image_keys, sortDescBy] using
      foldlInsert_filter (fun p => _get_axis_order_key p.1) m
        (image_keys.foldl (fun acc key => updateAxesLoop acc key) st).axes []
        (by simp)


/-! ## §4 Coordinate consolidation and the RAM dataset
(`ndstorage_base.py` / `ndram_dataset.py`) -/

/-- Python list indexing `l[i]` with negative-index support; an index
out of range raises `IndexError`. -/
def pyIndex {b : Type} (l : List b) (i : Int) : Except PyErr b :=
  if 0 ≤ i then
    match l.get? i.toNat with
    | some v => .ok v
    | none => .error .indexError
  else
    let j := (l.length : Int) + i
    if 0 ≤ j then
      match l.get? j.toNat with
      | some v => .ok v
      | none => .error .indexError
    else .error .indexError

/-- Python `del d[k]` on an insertion-ordered dict (keys are unique). -/
def aremove {k b : Type} [DecidableEq k] : List (k × b) → k → List (k × b)
  | [], _ => []
  | (k0, v0) :: rest, key =>
    if k0 = key then rest else (k0, v0) :: aremove rest key

/-- `NDStorageBase._consolidate_axes(channel, z, position, time, row,
column, **kwargs)` (ndstorage_base.py lines 648–668): remap a legacy
`channel_name` kwarg to `channel`; merge the named arguments and kwargs
into one dict; drop `None` values; then, for each remaining coordinate,
look up its axis type in `axes_types` (a missing axis name raises
`KeyError`) and translate an integer position on a string-typed axis
through `_string_axes_values[axis][i]`. -/
def consolidate_axes (types : List (String × AxType))
    (strVals : List (String × List AxVal))
    (channel z position time row column : Option AxVal)
    (kwargs : List (String × AxVal)) :
    Except PyErr (List (String × AxVal)) :=
  let cn := alookup kwargs "channel_name"
  let channel1 := match cn with | some v => some v | none => channel
  let kwargs1 := match cn with
    | some _ => aremove kwargs "channel_name"
    | none => kwargs
  let base : List (String × Option AxVal) :=
    [("channel", channel1), ("z", z), ("position", position),
     ("time", time), ("row", row), ("column", column)]
  let merged := kwargs1.foldl (fun acc p => aset acc p.1 (some p.2)) base
  let axis_positions := merged.filterMap
    (fun p => p.2.map (fun v => (p.1, v)))
  axis_positions.mapM (fun p =>
    match alookup types p.1 with
    | none => .error (.keyError p.1)
    | some t =>
      match t, p.2 with
      | .tStr, .ival i =>
        match alookup strVals p.1 with
        | none => .error (.keyError p.1)
        | some lst => do
          let v ← pyIndex lst i
          pure (p.1, v)
      | _, _ => pure p)

/-- `NDRAMDataset` (ndram_dataset.py): axis tables plus the two
in-memory maps keyed by the frozenset of the coordinate items.  The key
is modeled by the coordinate association list itself (the claims only
look up a key with the exact same coordinate dict). -/
structure NDRAMDataset (Img Md : Type) where
  tables : AxesTables
  images : List (List (String × AxVal) × Img)
  image_metadata : List (List (String × AxVal) × Md)

/-- A fresh `NDRAMDataset()`. -/
def emptyRAM : NDRAMDataset Unit Unit := ⟨emptyTables, [], []⟩

/-- `NDRAMDataset.put_image(coordinates, image, metadata)`
(ndram_dataset.py lines 31–36): store the image and the metadata under
the key first, then run `_update_axes` — which may raise, with the two
maps already updated. -/
def put_image {Img Md : Type} (d : NDRAMDataset Img Md)
    (coordinates : List (String × AxVal)) (image : Img) (metadata : Md) :
    NDRAMDataset Img Md × Option PyErr :=
  let key := coordinates
  let d1 : NDRAMDataset Img Md :=
    { d with images := aset d.images key image,
             image_metadata := aset d.image_metadata key metadata }
  let r := update_axes d1.tables coordinates
  ({ d1 with tables := r.1 }, r.2)

/-- `NDRAMDataset.has_image(channel, z, time, position, row, column,
**kwargs)` (ndram_dataset.py lines 49–52): consolidate the query
coordinates — passing `(channel, z, position, time, row, column)` to
`_consolidate_axes` — and test membership of the frozenset key in
`images`. -/
def ram_has_image {Img Md : Type} (d : NDRAMDataset Img Md)
    (channel z time position row column : Option AxVal)
    (kwargs : List (String × AxVal)) : Except PyErr Bool := do
  let axes ← consolidate_axes d.tables.axes_types d.tables.string_axes_values
      channel z position time row column kwargs
  return (alookup d.images axes).isSome

/-! ### C9: querying an axis name the dataset has never seen -/

theorem filterMap_allNone {b : Type} (l : List (String × Option b))
    (h : ∀ p ∈ l, p.2 = none) :
    l.filterMap (fun p => p.2.map (fun x => (p.1, x))) = [] := by
  induction l with
  | nil => rfl
  | cons p rest ih =>
    have hp := h p (by simp)
    simp only [List.filterMap_cons, hp, Option.map_none]
    exact ih (fun q hq => h q (List.mem_cons_of_mem _ hq))

theorem filterMap_aset_allNone {b : Type} (l : List (String × Option b))
    (q : String) (v : b) (h : ∀ p ∈ l, p.2 = none) :
    (aset l q (some v)).filterMap (fun p => p.2.map (fun x => (p.1, x)))
      = [(q, v)] := by
  induction l with
  | nil => simp [aset, List.filterMap_cons]
  | cons p rest ih =>
    obtain ⟨a, b0⟩ := p
    have hp : b0 = none := h (a, b0) (by simp)
    subst hp
    by_cases ha : a = q
    · subst ha
      have hset : aset ((a, (none : Option b)) :: rest) a (some v)
          = (a, some v) :: rest := by
        simp [aset]
      rw [hset, List.filterMap_cons]
      rw [filterMap_allNone rest (fun q0 hq => h q0 (List.mem_cons_of_mem _ hq))]
      rfl
    · have hset : aset ((a, (none : Option b)) :: rest) q (some v)
          = (a, none) :: aset rest q (some v) := by
        simp [aset, ha]
      rw [hset, List.filterMap_cons]
      simp only [Option.map_none]
      exact ih (fun q0 hq => h q0 (List.mem_cons_of_mem _ hq))

/-- **C9**: calling `has_image` with a single coordinate naming an axis
that has never been observed in the dataset raises `KeyError` (from the
`axes_types` lookup inside `_consolidate_axes`) instead of returning
`False` or `ImageNotFound`. -/
theorem C9_unknown_axis_keyerror {Img Md : Type} (d : NDRAMDataset Img Md)
    (qname : String) (qv : AxVal)
    (h1 : alookup d.tables.axes_types qname = none)
    (h2 : qname ≠ "channel_name") :
    ram_has_image d none none none none none none [(qname, qv)]
      = .error (.keyError qname) := by
  have hcn : alookup [(qname, qv)] "channel_name" = none := by
    simp [alookup, h2]
  simp only [ram_has_image, consolidate_axes, hcn, List.foldl_cons,
    List.foldl_nil]
  rw [filterMap_aset_allNone _ qname qv (by intro p hp; fin_cases hp <;> rfl)]
  simp only [List.mapM_cons, h1, List.mapM_nil]
  rfl

/-- **C9** witness: a fresh RAM dataset queried on the unseen axis
`"foo"` raises `KeyError("foo")`. -/
theorem C9_unknown_axis_keyerror_witness :
    ram_has_image emptyRAM none none none none none none
        [("foo", AxVal.ival 0)] = .error (.keyError "foo") :=
  C9_unknown_axis_keyerror emptyRAM "foo" (AxVal.ival 0) rfl (by decide)

/-! ### C10: `put_image` is not atomic on an axis-kind conflict -/

theorem updateTypesLoop_cons_none (types : List (String × AxType))
    (name : String) (v : AxVal) (rest : List (String × AxVal))
    (h : alookup types name = none) :
    updateTypesLoop types ((name, v) :: rest)
      = updateTypesLoop (aset types name v.typeOf) rest := by
  simp only [updateTypesLoop, h]

theorem updateTypesLoop_cons_some (types : List (String × AxType))
    (name : String) (v : AxVal) (rest : List (String × AxVal))
    (t : AxType) (h : alookup types name = some t) :
    updateTypesLoop types ((name, v) :: rest)
      = if v.typeOf = t then updateTypesLoop types rest
        else (types, some (.runtimeError
          "cant mix String and Integer values along an axis")) := by
  simp only [updateTypesLoop, h]

theorem updateTypesLoop_conflict :
    ∀ (coords : List (String × AxVal)) (types : List (String × AxType)),
      (coords.map Prod.fst).Nodup →
      (∃ p ∈ coords, ∃ t, alookup types p.1 = some t ∧ p.2.typeOf ≠ t) →
      (updateTypesLoop types coords).2 = some (.runtimeError
        "cant mix String and Integer values along an axis") := by
  intro coords
  induction coords with
  | nil =>
    intro types _ hconf
    rcases hconf with ⟨p, hp, _⟩
    simp at hp
  | cons q rest ih =>
    intro types hdup hconf
    obtain ⟨name, v⟩ := q
    have hmap : (name :: rest.map Prod.fst).Nodup := by simpa using hdup
    have hname : name ∉ rest.map Prod.fst := (List.nodup_cons.mp hmap).1
    have hdup' : (rest.map Prod.fst).Nodup := (List.nodup_cons.mp hmap).2
    cases hl : alookup types name with
    | none =>
      rw [updateTypesLoop_cons_none types name v rest hl]
      rcases hconf with ⟨p, hp, t, hpt, hconfl⟩
      rcases List.mem_cons.mp hp with hp | hp
      · rw [hp] at hpt
        simp only at hpt
        rw [hl] at hpt
        cases hpt
      · refine ih (aset types name v.typeOf) hdup' ⟨p, hp, t, ?_, hconfl⟩
        have hne : name ≠ p.1 := by
          intro he
          exact hname (he ▸ List.mem_map_of_mem Prod.fst hp)
        rw [alookup_aset_ne _ _ _ _ hne]
        exact hpt
    | some t0 =>
      rw [updateTypesLoop_cons_some types name v rest t0 hl]
      by_cases hv : v.typeOf = t0
      · rw [if_pos hv]
        rcases hconf with ⟨p, hp, t, hpt, hconfl⟩
        rcases List.mem_cons.mp hp with hp | hp
        · rw [hp] at hpt hconfl
          simp only at hpt hconfl
          rw [hl] at hpt
          cases hpt
          exact absurd hv hconfl
        · exact ih types hdup' ⟨p, hp, t, hpt, hconfl⟩
      · rw [if_neg hv]

theorem update_axes_eq_err (st : AxesTables) (coords : List (String × AxVal))
    (t1 : List (String × AxType)) (e : PyErr)
    (h : updateTypesLoop st.axes_types coords = (t1, some e)) :
    update_axes st coords = ({ st with axes_types := t1 }, some e) := by
  unfold update_axes
  rw [h]

/-- **C10**: if `put_image` is called with a coordinate whose axis
already has the opposite value kind, it returns the `RuntimeError`
raised by `_update_axes`, but the image and metadata have already been
inserted into `images` / `image_metadata` under the key and remain
retrievable by that exact key. -/
theorem C10_put_image_not_atomic {Img Md : Type} (d : NDRAMDataset Img Md)
    (coords : List (String × AxVal)) (img : Img) (md : Md)
    (hdup : (coords.map Prod.fst).Nodup)
    (hconf : ∃ p ∈ coords, ∃ t,
      alookup d.tables.axes_types p.1 = some t ∧ p.2.typeOf ≠ t) :
    (put_image d coords img md).2 = some (.runtimeError
        "cant mix String and Integer values along an axis")
    ∧ alookup (put_image d coords img md).1.images coords = some img
    ∧ alookup (put_image d coords img md).1.image_metadata coords
        = some md := by
  have herr := updateTypesLoop_conflict coords d.tables.axes_types hdup hconf
  refine ⟨?_, ?_, ?_⟩
  · rcases hu : updateTypesLoop d.tables.axes_types coords with ⟨t1, e⟩
    rw [hu] at herr
    simp only at herr
    subst herr
    simp only [put_image]
    rw [update_axes_eq_err _ _ _ _ hu]
  · simp only [put_image]
    exact alookup_aset_self _ _ _
  · simp only [put_image]
    exact alookup_aset_self _ _ _

/-- A RAM dataset that has already seen a string-valued `channel`
axis. -/
def conflictRAM : NDRAMDataset Unit Unit :=
  ⟨⟨[("channel", AxType.tStr)], [("channel", [AxVal.sval "DAPI"])],
    [("channel", [AxVal.sval "DAPI"])]⟩, [], []⟩

/-- **C10** witness: `put_image({channel: 0})` on a dataset whose
`channel` axis is string-typed errors, yet the entry is in both maps. -/
theorem C10_put_image_not_atomic_witness :
    (put_image conflictRAM [("channel", AxVal.ival 0)] () ()).2
        = some (.runtimeError
          "cant mix String and Integer values along an axis")
    ∧ alookup (put_image conflictRAM [("channel", AxVal.ival 0)] () ()).1.images
        [("channel", AxVal.ival 0)] = some ()
    ∧ alookup (put_image conflictRAM
          [("channel", AxVal.ival 0)] () ()).1.image_metadata
        [("channel", AxVal.ival 0)] = some () :=
  C10_put_image_not_atomic conflictRAM [("channel", AxVal.ival 0)] () ()
    (by decide)
    ⟨("channel", AxVal.ival 0), by decide, AxType.tStr, rfl, by decide⟩

/-! ## §5 Stitched chunk assembly
(`NDStorageBase._read_one_image_for_large_array`, ndstorage_base.py
lines 527–569) -/

/-- Python slice `l[a:-b]` (a ≥ 0, b ≥ 0): elements from index `a` up to
`len(l) - b` exclusive; `l[a:-0]` is `l[a:0] = []`. -/
def pySliceNeg {a : Type} (l : List a) (start negStop : Nat) : List a :=
  if negStop = 0 then []
  else (l.drop start).take (l.length - negStop - start)

/-- The overlap crop `tile[min_index[0]:-max_index[0],
min_index[1]:-max_index[1]]` with `min_index = floor(overlap/2)` and
`max_index = ceil(overlap/2)` (lines 552–554). -/
def cropTile (oy ox : Nat) (t : List (List Nat)) : List (List Nat) :=
  (pySliceNeg t (oy / 2) ((oy + 1) / 2)).map
    (fun row => pySliceNeg row (ox / 2) ((ox + 1) / 2))

/-- Concatenate a row of equal-height tiles along width (the innermost
axis of `np.block` / `da.block`). -/
def hconcatRow : List (List (List Nat)) → List (List Nat)
  | [] => []
  | [m] => m
  | m :: rest => List.zipWith (fun r1 r2 => r1 ++ r2) m (hconcatRow rest)

/-- `np.block` on a 2-level nested list: concatenate along width within
each inner list, then along height across the outer list. -/
def npBlock (blocks : List (List (List (List Nat)))) : List (List Nat) :=
  (blocks.map hconcatRow).flatten

/-- `np.arange(lo, hi + 1)` as a list of integers. -/
def intRange (lo hi : Int) : List Int :=
  (List.range (hi - lo + 1).toNat).map (fun i => lo + (i : Int))

/-- The stitched branch of `_read_one_image_for_large_array`
(lines 532–561): span the inclusive row/column ranges, fetch each tile
(zero `emptyTile` when absent), crop half the overlap from every side
when `overlap[0] > 0` and the dataset is full-resolution, and assemble
with `da.block`. -/
def stitchChunk (tiles : Int → Int → Option (List (List Nat)))
    (rmin rmax cmin cmax : Int) (emptyTile : List (List Nat))
    (overlapY overlapX : Nat) (fullRes : Bool) : List (List Nat) :=
  let rows := intRange rmin rmax
  let cols := intRange cmin cmax
  npBlock (rows.map (fun r => cols.map (fun c =>
    match tiles r c with
    | none => emptyTile
    | some tile =>
      if 0 < overlapY ∧ fullRes then cropTile overlapY overlapX tile
      else tile)))

/-- The sub-image the spec says a present `(H, W)` tile contributes:
rows `floor(oy/2)` through `H − ceil(oy/2)` (exclusive) and columns
`floor(ox/2)` through `W − ceil(ox/2)` (exclusive). -/
def specSubImage (t : List (List Nat)) (oy ox H W : Nat) :
    List (List Nat) :=
  ((t.drop (oy / 2)).take ((H - (oy + 1) / 2) - oy / 2)).map
    (fun row => (row.drop (ox / 2)).take ((W - (ox + 1) / 2) - ox / 2))

theorem cropTile_eq_spec (t : List (List Nat)) (oy ox H W : Nat)
    (hoy : 0 < oy) (hox : 0 < ox) (hH : t.length = H)
    (hW : ∀ row ∈ t, row.length = W) :
    cropTile oy ox t = specSubImage t oy ox H W := by
  unfold cropTile specSubImage pySliceNeg
  have hb : ¬((oy + 1) / 2 = 0) := by omega
  have hbx : ¬((ox + 1) / 2 = 0) := by omega
  rw [if_neg hb, hH]
  apply List.map_congr_left
  intro row hrow
  have hmem : row ∈ t := List.drop_subset _ _ (List.take_subset _ _ hrow)
  rw [if_neg hbx, hW row hmem]

/-- **C6**: at full resolution with overlap `(oy, ox)`, `oy > 0`,
`ox > 0`, the stitched chunk equals the `np.block` assembly in which
every present `(H, W)` tile is replaced by exactly the sub-image
`[floor(oy/2) : H − ceil(oy/2), floor(ox/2) : W − ceil(ox/2)]` (and
absent tiles by the zero tile): tiles are concatenated along width
within each row and along height across rows. -/
theorem C6_stitched_tile_contribution
    (tiles : Int → Int → Option (List (List Nat)))
    (rmin rmax cmin cmax : Int) (emptyTile : List (List Nat))
    (oy ox H W : Nat) (hoy : 0 < oy) (hox : 0 < ox)
    (hdims : ∀ r c t, tiles r c = some t →
      t.length = H ∧ ∀ row ∈ t, row.length = W) :
    stitchChunk tiles rmin rmax cmin cmax emptyTile oy ox true
      = npBlock ((intRange rmin rmax).map (fun r =>
          (intRange cmin cmax).map (fun c =>
            match tiles r c with
            | none => emptyTile
            | some t => specSubImage t oy ox H W))) := by
  simp only [stitchChunk]
  apply congrArg npBlock
  apply List.map_congr_left
  intro r _
  apply List.map_congr_left
  intro c _
  cases ht : tiles r c with
  | none => rfl
  | some t =>
    show (if 0 < oy ∧ True then cropTile oy ox t else t)
      = specSubImage t oy ox H W
    rw [if_pos ⟨hoy, trivial⟩]
    exact cropTile_eq_spec t oy ox H W hoy hox (hdims r c t ht).1
      (hdims r c t ht).2

/-- A 1×1 grid whose single tile is the 3×3 matrix 1..9. -/
def c6tiles : Int → Int → Option (List (List Nat)) :=
  fun _ _ => some [[1, 2, 3], [4, 5, 6], [7, 8, 9]]

/-- **C6** witness: the contribution theorem applied to a concrete 1×1
grid with overlap `(2, 2)` and 3×3 tiles. -/
theorem C6_stitched_tile_contribution_witness :
    stitchChunk c6tiles 0 0 0 0 [[0]] 2 2 true
      = npBlock ((intRange 0 0).map (fun r =>
          (intRange 0 0).map (fun c =>
            match c6tiles r c with
            | none => [[0]]
            | some t => specSubImage t 2 2 3 3))) :=
  C6_stitched_tile_contribution c6tiles 0 0 0 0 [[0]] 2 2 3 3
    (by decide) (by decide)
    (fun r c t h => by
      simp only [c6tiles] at h
      cases h
      exact ⟨rfl, by decide⟩)

/-! ## §6 Pyramid resolution-level discovery
(`NDTiffPyramidDataset.__init__`, ndtiff_pyramid_dataset.py lines
48–91 and nd_tiff_current.py lines 768–811) -/

/-- Python `str.split(sep)` for a one-character separator. -/
def splitOnChar (sep : Char) : List Char → List (List Char)
  | [] => [[]]
  | c :: cs =>
    match splitOnChar sep cs with
    | [] => [[]]
    | h :: t => if c = sep then [] :: h :: t else (c :: h) :: t

/-- Decimal digit value of a character. -/
def digitVal (c : Char) : Option Nat :=
  if '0' ≤ c ∧ c ≤ '9' then some (c.toNat - '0'.toNat) else none

def parseDigitsAux : List Char → Nat → Option Nat
  | [], acc => some acc
  | c :: cs, acc =>
    match digitVal c with
    | some d => parseDigitsAux cs (10 * acc + d)
    | none => none

/-- Python `int(s)` on a plain decimal string: optional sign followed by
at least one digit; anything else raises `ValueError` (leading/trailing
whitespace and underscore separators are not modeled — directory names
contain neither). -/
def pyInt : List Char → Option Int
  | [] => none
  | c :: cs =>
    if c = '-' then
      if cs = [] then none
      else (parseDigitsAux cs 0).map (fun n => -(n : Int))
    else if c = '+' then
      if cs = [] then none
      else (parseDigitsAux cs 0).map (fun n => (n : Int))
    else (parseDigitsAux (c :: cs) 0).map (fun n => (n : Int))

/-- `int(np.log2(int(res_dir.split("x")[1])))` (ndtiff_pyramid_dataset.py
line 89): index 1 of the split raises `IndexError` when missing; a
non-numeric string raises `ValueError`; `np.log2` of a non-positive
value followed by `int()` also raises.  Float truncation of `log2`
coincides with `Nat.log2` on the relevant range. -/
def levelOfResDir (name : List Char) : Except PyErr Nat :=
  match (splitOnChar 'x' name).get? 1 with
  | none => .error .indexError
  | some s =>
    match pyInt s with
    | none => .error .valueError
    | some f => if f ≤ 0 then .error .valueError else .ok (Nat.log2 f.toNat)

/-- The directory loop of `NDTiffPyramidDataset.__init__` (lines 63–89),
accumulating the `res_levels` dict: `Full resolution` is registered at
level 0 with the full-resolution flag set; every other subdirectory is
registered at the level parsed from its name, flag cleared.  A parse
failure propagates as the exception. -/
def registerLoop (acc : List (Nat × (List Char × Bool))) :
    List (List Char) → Except PyErr (List (Nat × (List Char × Bool)))
  | [] => .ok acc
  | d :: rest =>
    if d = "Full resolution".data then
      registerLoop (aset acc 0 (d, true)) rest
    else
      match levelOfResDir d with
      | .error e => .error e
      | .ok k => registerLoop (aset acc k (d, false)) rest

/-- `NDTiffPyramidDataset.__init__` level registration over the whole
directory listing. -/
def registerResDirs (dirs : List (List Char)) :
    Except PyErr (List (Nat × (List Char × Bool))) :=
  registerLoop [] dirs

theorem parseDigitsAux_first_digit (c : Char) (cs : List Char) (acc n : Nat)
    (h : parseDigitsAux (c :: cs) acc = some n) : digitVal c ≠ none := by
  intro hd
  simp [parseDigitsAux, hd] at h

theorem parseDigitsAux_digits :
    ∀ (l : List Char) (acc n : Nat), parseDigitsAux l acc = some n →
      ∀ c ∈ l, digitVal c ≠ none := by
  intro l
  induction l with
  | nil => intro acc n _ c hc; simp at hc
  | cons d dsx ih =>
    intro acc n h c hc
    cases hd : digitVal d with
    | none => simp [parseDigitsAux, hd] at h
    | some v =>
      simp only [parseDigitsAux, hd] at h
      rcases List.mem_cons.mp hc with hc | hc
      · rw [hc, hd]
        simp
      · exact ih _ _ h c hc

theorem splitOnChar_ne_nil (sep : Char) :
    ∀ l : List Char, splitOnChar sep l ≠ [] := by
  intro l
  induction l with
  | nil => simp [splitOnChar]
  | cons c cs ih =>
    simp only [splitOnChar]
    cases hs : splitOnChar sep cs with
    | nil => simp
    | cons h t =>
      by_cases hc : c = sep <;> simp [hc]

theorem splitOnChar_not_mem (sep : Char) :
    ∀ l : List Char, sep ∉ l → splitOnChar sep l = [l] := by
  intro l
  induction l with
  | nil => intro _; rfl
  | cons c cs ih =>
    intro hmem
    have hc : c ≠ sep := fun he => hmem (by rw [he]; exact List.mem_cons_self _ _)
    have hcs : sep ∉ cs := fun hin => hmem (List.mem_cons_of_mem _ hin)
    simp only [splitOnChar, ih hcs]
    rw [if_neg hc]

theorem splitOnChar_append (sep : Char) (l1 l2 : List Char)
    (h1 : sep ∉ l1) :
    splitOnChar sep (l1 ++ sep :: l2) = l1 :: splitOnChar sep l2 := by
  induction l1 with
  | nil =>
    simp only [List.nil_append, splitOnChar]
    cases hs : splitOnChar sep l2 with
    | nil => exact absurd hs (splitOnChar_ne_nil sep l2)
    | cons h t => simp
  | cons c cs ih =>
    have hc : c ≠ sep := fun he => h1 (by rw [he]; exact List.mem_cons_self _ _)
    have hcs : sep ∉ cs := fun hin => h1 (List.mem_cons_of_mem _ hin)
    show splitOnChar sep (c :: (cs ++ sep :: l2)) = (c :: cs) :: splitOnChar sep l2
    simp only [splitOnChar]
    rw [ih hcs]
    simp [hc]

/-- **C8** (amended): a pyramid directory listing of `Full resolution`
plus a subdirectory named `Downsampled_x<factor>` — the factor *after*
the `x` — with factor `2^k` registers `Full resolution` at level 0 with
the full-resolution flag set and the downsampled dataset at level
`k = log2(factor)` with the flag cleared. -/
theorem C8_pyramid_levels (ds : List Char) (k : Nat)
    (hds : parseDigitsAux ds 0 = some (2 ^ k)) (hk : 0 < k) :
    registerResDirs ["Full resolution".data, "Downsampled_x".data ++ ds]
      = .ok [(0, ("Full resolution".data, true)),
             (k, ("Downsampled_x".data ++ ds, false))] := by
  have h2pos : 0 < 2 ^ k := pow_pos (by norm_num) k
  have hne : ds ≠ [] := by
    intro he
    rw [he] at hds
    simp only [parseDigitsAux, Option.some.injEq] at hds
    omega
  obtain ⟨c, cs, rfl⟩ := List.exists_cons_of_ne_nil hne
  have hdig : digitVal c ≠ none := parseDigitsAux_first_digit c cs 0 _ hds
  have hcx : 'x' ∉ (c :: cs) := fun hmem =>
    (parseDigitsAux_digits _ _ _ hds 'x' hmem) (by decide)
  have hcm : c ≠ '-' := fun he => hdig (by rw [he]; decide)
  have hcp : c ≠ '+' := fun he => hdig (by rw [he]; decide)
  have hsplit : splitOnChar 'x' ("Downsampled_x".data ++ (c :: cs))
      = ["Downsampled_".data, c :: cs] := by
    have h1 : "Downsampled_x".data = "Downsampled_".data ++ ['x'] := by decide
    rw [h1, List.append_assoc, List.singleton_append]
    rw [splitOnChar_append 'x' _ _ (by decide)]
    rw [splitOnChar_not_mem 'x' _ hcx]
  have hpy : pyInt (c :: cs) = some ((2 ^ k : Nat) : Int) := by
    simp [pyInt, if_neg hcm, if_neg hcp, hds]
  have hlev : levelOfResDir ("Downsampled_x".data ++ (c :: cs)) = .ok k := by
    unfold levelOfResDir
    rw [hsplit]
    have hget : (["Downsampled_".data, c :: cs] : List (List Char)).get? 1
        = some (c :: cs) := rfl
    rw [hget]
    simp only [hpy]
    rw [if_neg (by exact_mod_cast not_le.mpr h2pos)]
    rw [Int.toNat_natCast, Nat.log2_eq_log_two, Nat.log_pow (by norm_num) k]
  have hne2 : ("Downsampled_x".data ++ (c :: cs)) ≠ "Full resolution".data := by
    intro he
    have hh := congrArg List.head? he
    have h1 : "Downsampled_x".data = 'D' :: "ownsampled_x".data := by decide
    rw [h1, List.cons_append] at hh
    simp only [List.head?] at hh
    exact absurd hh (by decide)
  have h0k : (0 : Nat) ≠ k := by omega
  unfold registerResDirs
  simp only [registerLoop, hlev, if_neg hne2]
  simp [aset, h0k]

/-- **C8** witness. -/
theorem C8_pyramid_levels_witness :
    registerResDirs ["Full resolution".data, "Downsampled_x".data ++ "4".data]
      = .ok [(0, ("Full resolution".data, true)),
             (2, ("Downsampled_x".data ++ "4".data, false))] :=
  C8_pyramid_levels "4".data 2 (by rfl) (by decide)

/-- **C8** counterexample to the claim as stated: a directory named
`Downsampled_2x` (factor *before* the `x`, as the claim spells it) makes
`int(name.split("x")[1])` parse the empty string, raising `ValueError` —
the directory is not registered at level 1, the open fails. -/
theorem C8_counterexample :
    registerResDirs ["Full resolution".data, "Downsampled_2x".data]
      = .error .valueError := by
  rfl

/-! ## §7 Byte-level primitives for the index record codec
(`ndtiff/ndtiff_index.py`)

Multi-byte integers are read and written with `struct.pack("I", ·)` /
`struct.unpack("I", ·)` — 4-byte unsigned little-endian on the
(little-endian) host. -/

/-- Python `data[pos : pos + len]` on bytes: a slice that is silently
shorter when it runs past the end. -/
def sliceBytes (data : List Nat) (pos len : Nat) : List Nat :=
  (data.drop pos).take len

/-- Value of a little-endian byte string. -/
def leVal : List Nat → Nat
  | [] => 0
  | b :: rest => b + 256 * leVal rest

/-- `struct.pack("I", v)` for `v < 2^32`: four little-endian bytes. -/
def u32le (v : Nat) : List Nat :=
  [v % 256, v / 256 % 256, v / 65536 % 256, v / 16777216 % 256]

/-- `struct.unpack("I", data[pos:pos+4])`: `struct.error` (modeled as
`none`) unless exactly four bytes are available. -/
def readU32 (data : List Nat) (pos : Nat) : Option Nat :=
  let s := sliceBytes data pos 4
  if s.length = 4 then some (leVal s) else none

theorem u32le_length (v : Nat) : (u32le v).length = 4 := rfl

theorem leVal_u32le (v : Nat) (hv : v < 4294967296) : leVal (u32le v) = v := by
  simp only [u32le, leVal]
  omega

theorem sliceBytes_append_exact (a b : List Nat) (n : Nat)
    (h : a.length = n) : sliceBytes (a ++ b) 0 n = a := by
  simp [sliceBytes, ← h, List.take_left]

theorem readU32_u32le (v : Nat) (rest : List Nat) (hv : v < 4294967296) :
    readU32 (u32le v ++ rest) 0 = some v := by
  simp only [readU32, sliceBytes_append_exact _ _ 4 (u32le_length v)]
  rw [if_pos (u32le_length v), leVal_u32le v hv]

/-! ## §8 The JSON codec used for the axes dict

`as_byte_buffer` serializes the axes dict with `json.dumps` (default
arguments: `ensure_ascii=True`, item separator `", "`, key separator
`": "`) and `unpack_single_index_entry` parses it back with
`json.loads`.  Axis values are ints or strings; strings are sequences of
Unicode scalar values (`WfStr`).  The parser below is the restriction of
`json.loads` to the canonical form `json.dumps` emits (it does not model
the extra whitespace tolerance of `json.loads`, which no claim
exercises). -/

/-- A JSON value in an axes dict: a Python `int` or `str` (as a list of
Unicode code points). -/
inductive JVal where
  | jint (n : Int)
  | jstr (s : List Nat)
deriving DecidableEq

/-- A well-formed Python string: every code point is a Unicode scalar
value (no lone surrogates — `json.loads` would silently re-pair
adjacent escaped surrogates, and `.encode("utf-8")` rejects them). -/
def WfStr (s : List Nat) : Prop :=
  ∀ c ∈ s, c < 0xD800 ∨ (0xE000 ≤ c ∧ c < 0x110000)

/-- Well-formedness of a JSON value. -/
def WfVal : JVal → Prop
  | .jint _ => True
  | .jstr s => WfStr s

/-- The decimal digits of `n`, most significant first, as ASCII bytes
(Python `repr` of a nonnegative int). -/
def natDecimal (n : Nat) : List Nat :=
  if h : n < 10 then [0x30 + n]
  else natDecimal (n / 10) ++ [0x30 + n % 10]
termination_by n
decreasing_by exact Nat.div_lt_self (by omega) (by omega)

/-- `json.dumps` of a Python int: optional minus sign and decimal
digits. -/
def encInt (n : Int) : List Nat :=
  if n < 0 then 0x2D :: natDecimal (-n).toNat else natDecimal n.toNat

/-- Greedy decimal-digit scan with accumulator. -/
def parseDigits : List Nat → Nat → (Nat × List Nat)
  | [], acc => (acc, [])
  | c :: cs, acc =>
    if 0x30 ≤ c ∧ c ≤ 0x39 then parseDigits cs (10 * acc + (c - 0x30))
    else (acc, c :: cs)

/-- Parse a canonical JSON integer (optional minus sign, at least one
digit). -/
def parseJInt : List Nat → Option (Int × List Nat)
  | [] => none
  | c :: cs =>
    if c = 0x2D then
      match cs with
      | [] => none
      | d :: _ =>
        if 0x30 ≤ d ∧ d ≤ 0x39 then
          match parseDigits cs 0 with
          | (n, rest) => some (-(n : Int), rest)
        else none
    else if 0x30 ≤ c ∧ c ≤ 0x39 then
      match parseDigits (c :: cs) 0 with
      | (n, rest) => some ((n : Int), rest)
    else none

/-- The head of the remaining input is not a decimal digit (so a greedy
digit scan stops exactly at the boundary). -/
def NotDigitHead : List Nat → Prop
  | [] => True
  | c :: _ => ¬(0x30 ≤ c ∧ c ≤ 0x39)

theorem natDecimal_digits (n : Nat) :
    ∀ c ∈ natDecimal n, 0x30 ≤ c ∧ c ≤ 0x39 := by
  induction n using Nat.strong_induction_on with
  | _ n ih =>
    intro c hc
    by_cases h : n < 10
    · rw [natDecimal, dif_pos h] at hc
      simp only [List.mem_singleton] at hc
      omega
    · rw [natDecimal, dif_neg h] at hc
      rcases List.mem_append.mp hc with hc | hc
      · exact ih (n / 10) (Nat.div_lt_self (by omega) (by omega)) c hc
      · simp only [List.mem_singleton] at hc
        have : n % 10 < 10 := Nat.mod_lt _ (by omega)
        omega

theorem natDecimal_ne_nil (n : Nat) : natDecimal n ≠ [] := by
  by_cases h : n < 10
  · rw [natDecimal, dif_pos h]; simp
  · rw [natDecimal, dif_neg h]; simp

theorem parseDigits_natDecimal (n : Nat) :
    ∀ (acc : Nat) (rest : List Nat),
      parseDigits (natDecimal n ++ rest) acc
        = parseDigits rest (acc * 10 ^ (natDecimal n).length + n) := by
  induction n using Nat.strong_induction_on with
  | _ n ih =>
    intro acc rest
    by_cases h : n < 10
    · rw [natDecimal, dif_pos h]
      simp only [List.cons_append, List.nil_append, parseDigits,
        if_pos (by omega : 0x30 ≤ 0x30 + n ∧ 0x30 + n ≤ 0x39)]
      have he : 0x30 + n - 0x30 = n := by omega
      rw [he, Nat.mul_comm 10 acc]
      norm_num
    · rw [natDecimal, dif_neg h]
      rw [List.append_assoc, ih (n / 10) (Nat.div_lt_self (by omega) (by omega))]
      have hd : n % 10 < 10 := Nat.mod_lt _ (by omega)
      simp only [List.cons_append, List.nil_append, parseDigits,
        if_pos (by omega : 0x30 ≤ 0x30 + n % 10 ∧ 0x30 + n % 10 ≤ 0x39)]
      have he : 0x30 + n % 10 - 0x30 = n % 10 := by omega
      rw [he]
      have hlen : (natDecimal (n / 10) ++ [0x30 + n % 10]).length
          = (natDecimal (n / 10)).length + 1 := by simp
      rw [hlen]
      have harith : 10 * (acc * 10 ^ (natDecimal (n / 10)).length + n / 10)
            + n % 10
          = acc * 10 ^ ((natDecimal (n / 10)).length + 1) + n := by
        rw [pow_succ]
        have := Nat.div_add_mod n 10
        ring_nf
        omega
      rw [harith]
      simp

theorem parseDigits_stop (l : List Nat) (acc : Nat) (h : NotDigitHead l) :
    parseDigits l acc = (acc, l) := by
  cases l with
  | nil => rfl
  | cons c cs =>
    simp only [NotDigitHead] at h
    simp only [parseDigits, if_neg h]

/-- Round trip for canonical integer encoding. -/
theorem parseJInt_encInt (n : Int) (rest : List Nat)
    (hrest : NotDigitHead rest) :
    parseJInt (encInt n ++ rest) = some (n, rest) := by
  by_cases hn : n < 0
  · rw [encInt, if_pos hn, List.cons_append]
    obtain ⟨d, ds, hds⟩ :=
      List.exists_cons_of_ne_nil (natDecimal_ne_nil (-n).toNat)
    rw [hds, List.cons_append]
    have hd : 0x30 ≤ d ∧ d ≤ 0x39 :=
      natDecimal_digits _ d (by rw [hds]; exact List.mem_cons_self _ _)
    simp only [parseJInt, if_pos rfl, if_pos hd]
    rw [← List.cons_append, ← hds, parseDigits_natDecimal,
      parseDigits_stop _ _ hrest]
    have : ((0 * 10 ^ (natDecimal (-n).toNat).length + (-n).toNat : Nat) : Int)
        = -n := by
      simp [Int.toNat_of_nonneg (by omega : (0 : Int) ≤ -n)]
    simp only [this]
    simp
  · rw [encInt, if_neg hn]
    obtain ⟨d, ds, hds⟩ :=
      List.exists_cons_of_ne_nil (natDecimal_ne_nil n.toNat)
    rw [hds, List.cons_append]
    have hd : 0x30 ≤ d ∧ d ≤ 0x39 :=
      natDecimal_digits _ d (by rw [hds]; exact List.mem_cons_self _ _)
    have hdm : ¬(d = 0x2D) := by omega
    simp only [parseJInt, if_neg hdm, if_pos hd]
    rw [← List.cons_append, ← hds, parseDigits_natDecimal,
      parseDigits_stop _ _ hrest]
    have : ((0 * 10 ^ (natDecimal n.toNat).length + n.toNat : Nat) : Int) = n := by
      simp [Int.toNat_of_nonneg (by omega : (0 : Int) ≤ n)]
    simp only [this]

/-! ### String escaping (`json.dumps` with `ensure_ascii=True`) -/

/-- Lowercase hexadecimal digit. -/
def hexDig (n : Nat) : Nat := if n < 10 then 0x30 + n else 0x57 + n

/-- `\uXXXX` escape of a code unit `< 0x10000`. -/
def escU16 (c : Nat) : List Nat :=
  [0x5C, 0x75, hexDig (c / 4096 % 16), hexDig (c / 256 % 16),
   hexDig (c / 16 % 16), hexDig (c % 16)]

/-- The escape of one character, as emitted by
`json.encoder.py_encode_basestring_ascii`: the two-character escapes
for `"`, `\`, backspace, tab, newline, form feed and carriage return;
`\uXXXX` for any other character outside `0x20..0x7E`; surrogate pairs
for astral code points. -/
def escChar (c : Nat) : List Nat :=
  if c = 0x22 then [0x5C, 0x22]
  else if c = 0x5C then [0x5C, 0x5C]
  else if c = 0x08 then [0x5C, 0x62]
  else if c = 0x09 then [0x5C, 0x74]
  else if c = 0x0A then [0x5C, 0x6E]
  else if c = 0x0C then [0x5C, 0x66]
  else if c = 0x0D then [0x5C, 0x72]
  else if c < 0x20 then escU16 c
  else if c < 0x7F then [c]
  else if c < 0x10000 then escU16 c
  else escU16 (0xD800 + (c - 0x10000) / 0x400)
    ++ escU16 (0xDC00 + (c - 0x10000) % 0x400)

/-- The escaped body of a string (everything between the quotes). -/
def encStrBody : List Nat → List Nat
  | [] => []
  | c :: cs => escChar c ++ encStrBody cs

/-- `json.dumps` of a string. -/
def encStr (s : List Nat) : List Nat := 0x22 :: encStrBody s ++ [0x22]

/-- Hexadecimal digit value (`json.loads` accepts both cases). -/
def hexVal (c : Nat) : Option Nat :=
  if 0x30 ≤ c ∧ c ≤ 0x39 then some (c - 0x30)
  else if 0x61 ≤ c ∧ c ≤ 0x66 then some (c - 0x57)
  else if 0x41 ≤ c ∧ c ≤ 0x46 then some (c - 0x37)
  else none

/-- Parse exactly four hexadecimal digits. -/
def parse4Hex : List Nat → Option (Nat × List Nat)
  | a :: b :: c :: d :: rest =>
    match hexVal a, hexVal b, hexVal c, hexVal d with
    | some va, some vb, some vc, some vd =>
      some (4096 * va + 256 * vb + 16 * vc + vd, rest)
    | _, _, _, _ => none
  | _ => none

/-- One step of the `json.loads` string scanner on a non-quote
character `c` with remaining input `cs`: the named escapes, `\uXXXX`
escapes with surrogate-pair recombination, rejection of raw control
characters (strict mode) and of invalid escapes; `recur` scans the rest
of the body. -/
def psbStep (recur : List Nat → Option (List Nat × List Nat)) (c : Nat)
    (cs : List Nat) : Option (List Nat × List Nat) :=
  if c = 0x5C then
    match cs with
    | [] => none
    | e :: cs2 =>
      if e = 0x22 ∨ e = 0x5C ∨ e = 0x2F then
        (recur cs2).map (fun pr => (e :: pr.1, pr.2))
      else if e = 0x62 then (recur cs2).map (fun pr => (0x08 :: pr.1, pr.2))
      else if e = 0x66 then (recur cs2).map (fun pr => (0x0C :: pr.1, pr.2))
      else if e = 0x6E then (recur cs2).map (fun pr => (0x0A :: pr.1, pr.2))
      else if e = 0x72 then (recur cs2).map (fun pr => (0x0D :: pr.1, pr.2))
      else if e = 0x74 then (recur cs2).map (fun pr => (0x09 :: pr.1, pr.2))
      else if e = 0x75 then
        match parse4Hex cs2 with
        | none => none
        | some (hv, cs3) =>
          if 0xD800 ≤ hv ∧ hv < 0xDC00 then
            match cs3 with
            | 0x5C :: 0x75 :: cs4 =>
              match parse4Hex cs4 with
              | none => (recur cs3).map (fun pr => (hv :: pr.1, pr.2))
              | some (lv, cs5) =>
                if 0xDC00 ≤ lv ∧ lv < 0xE000 then
                  (recur cs5).map (fun pr =>
                    ((0x10000 + (hv - 0xD800) * 0x400
                      + (lv - 0xDC00)) :: pr.1, pr.2))
                else (recur cs3).map (fun pr => (hv :: pr.1, pr.2))
            | _ => (recur cs3).map (fun pr => (hv :: pr.1, pr.2))
          else (recur cs3).map (fun pr => (hv :: pr.1, pr.2))
      else none
  else if c < 0x20 then none
  else (recur cs).map (fun pr => (c :: pr.1, pr.2))

/-- The body scanner of `json.loads` for a string, fueled by the number
of characters still allowed (one unit per produced character; the
callers pass the byte length of the input, which always suffices). -/
def parseStrBodyF : Nat → List Nat → Option (List Nat × List Nat)
  | _, [] => none
  | 0, c :: cs => if c = 0x22 then some ([], cs) else none
  | fuel + 1, c :: cs =>
    if c = 0x22 then some ([], cs)
    else psbStep (parseStrBodyF fuel) c cs

/-- String-body scan with the always-sufficient fuel. -/
def parseStrBody (l : List Nat) : Option (List Nat × List Nat) :=
  parseStrBodyF l.length l

theorem hexVal_hexDig (d : Nat) (hd : d < 16) : hexVal (hexDig d) = some d := by
  unfold hexDig hexVal
  by_cases h : d < 10
  · rw [if_pos h, if_pos (by omega)]
    congr 1
    omega
  · rw [if_neg h, if_neg (by omega), if_pos (by omega)]
    congr 1
    omega

theorem parse4Hex_escU16 (c : Nat) (rest : List Nat) (hc : c < 0x10000) :
    parse4Hex ([hexDig (c / 4096 % 16), hexDig (c / 256 % 16),
      hexDig (c / 16 % 16), hexDig (c % 16)] ++ rest) = some (c, rest) := by
  simp only [List.cons_append, List.nil_append, parse4Hex,
    hexVal_hexDig _ (Nat.mod_lt _ (by omega)),
    hexVal_hexDig (c % 16) (Nat.mod_lt _ (by omega))]
  congr 2
  omega

theorem psb_succ (f : Nat) (c : Nat) (t : List Nat) :
    parseStrBodyF (f + 1) (c :: t)
      = if c = 0x22 then some ([], t)
        else psbStep (parseStrBodyF f) c t := rfl

theorem psb_quote (f : Nat) (t : List Nat) :
    parseStrBodyF f (0x22 :: t) = some ([], t) := by
  cases f with
  | zero => rfl
  | succ n => rfl

theorem psb_esc2 (f : Nat) (e out : Nat) (t : List Nat)
    (h : (e = 0x22 ∧ out = 0x22) ∨ (e = 0x5C ∧ out = 0x5C)
      ∨ (e = 0x62 ∧ out = 0x08) ∨ (e = 0x74 ∧ out = 0x09)
      ∨ (e = 0x6E ∧ out = 0x0A) ∨ (e = 0x66 ∧ out = 0x0C)
      ∨ (e = 0x72 ∧ out = 0x0D)) :
    parseStrBodyF (f + 1) (0x5C :: e :: t)
      = (parseStrBodyF f t).map (fun pr => (out :: pr.1, pr.2)) := by
  rcases h with ⟨he, ho⟩ | ⟨he, ho⟩ | ⟨he, ho⟩ | ⟨he, ho⟩ | ⟨he, ho⟩
    | ⟨he, ho⟩ | ⟨he, ho⟩ <;> subst he <;> subst ho <;> rfl

theorem psb_plain (f : Nat) (c : Nat) (t : List Nat) (h1 : ¬c = 0x22)
    (h2 : ¬c = 0x5C) (h3 : ¬c < 0x20) :
    parseStrBodyF (f + 1) (c :: t)
      = (parseStrBodyF f t).map (fun pr => (c :: pr.1, pr.2)) := by
  rw [psb_succ, if_neg h1]
  simp [psbStep, h2, h3]

theorem psb_u_single (f : Nat) (t cs3 : List Nat) (hv : Nat)
    (h4 : parse4Hex t = some (hv, cs3))
    (hns : ¬(0xD800 ≤ hv ∧ hv < 0xDC00)) :
    parseStrBodyF (f + 1) (0x5C :: 0x75 :: t)
      = (parseStrBodyF f cs3).map (fun pr => (hv :: pr.1, pr.2)) := by
  rw [psb_succ, if_neg (by norm_num)]
  simp [psbStep, h4, hns]

theorem psb_u_pair (f : Nat) (t cs4 cs5 : List Nat) (hv lv : Nat)
    (h4 : parse4Hex t = some (hv, 0x5C :: 0x75 :: cs4))
    (hhi : 0xD800 ≤ hv ∧ hv < 0xDC00)
    (h5 : parse4Hex cs4 = some (lv, cs5))
    (hlo : 0xDC00 ≤ lv ∧ lv < 0xE000) :
    parseStrBodyF (f + 1) (0x5C :: 0x75 :: t)
      = (parseStrBodyF f cs5).map (fun pr =>
          ((0x10000 + (hv - 0xD800) * 0x400 + (lv - 0xDC00)) :: pr.1,
            pr.2)) := by
  rw [psb_succ, if_neg (by norm_num)]
  simp [psbStep, h4, hhi, h5, hlo]

/-- Round trip of the string body: parsing the escaped body followed by
the closing quote recovers the original scalar string. -/
theorem parseStrBodyF_encStrBody :
    ∀ (s : List Nat) (fuel : Nat) (rest : List Nat),
      s.length ≤ fuel → WfStr s →
      parseStrBodyF fuel (encStrBody s ++ 0x22 :: rest) = some (s, rest) := by
  intro s
  induction s with
  | nil =>
    intro fuel rest _ _
    simpa [encStrBody] using psb_quote fuel rest
  | cons c cs ih =>
    intro fuel rest hlen hwf
    have hcs : WfStr cs := fun x hx => hwf x (List.mem_cons_of_mem _ hx)
    have hcw := hwf c (List.mem_cons_self _ _)
    cases fuel with
    | zero => simp at hlen
    | succ f =>
      have hlen2 : cs.length ≤ f := by simpa using hlen
      have hih := ih f rest hlen2 hcs
      show parseStrBodyF (f + 1) ((escChar c ++ encStrBody cs) ++ 0x22 :: rest)
        = some (c :: cs, rest)
      rw [List.append_assoc]
      set Z := encStrBody cs ++ 0x22 :: rest with hZ
      by_cases h22 : c = 0x22
      · subst h22
        rw [show escChar 0x22 = [0x5C, 0x22] from rfl]
        simp only [List.cons_append, List.nil_append]
        rw [psb_esc2 f 0x22 0x22 Z (by norm_num), hih]
        rfl
      by_cases h5c : c = 0x5C
      · subst h5c
        rw [show escChar 0x5C = [0x5C, 0x5C] from rfl]
        simp only [List.cons_append, List.nil_append]
        rw [psb_esc2 f 0x5C 0x5C Z (by norm_num), hih]
        rfl
      by_cases h08 : c = 0x08
      · subst h08
        rw [show escChar 0x08 = [0x5C, 0x62] from rfl]
        simp only [List.cons_append, List.nil_append]
        rw [psb_esc2 f 0x62 0x08 Z (by norm_num), hih]
        rfl
      by_cases h09 : c = 0x09
      · subst h09
        rw [show escChar 0x09 = [0x5C, 0x74] from rfl]
        simp only [List.cons_append, List.nil_append]
        rw [psb_esc2 f 0x74 0x09 Z (by norm_num), hih]
        rfl
      by_cases h0A : c = 0x0A
      · subst h0A
        rw [show escChar 0x0A = [0x5C, 0x6E] from rfl]
        simp only [List.cons_append, List.nil_append]
        rw [psb_esc2 f 0x6E 0x0A Z (by norm_num), hih]
        rfl
      by_cases h0C : c = 0x0C
      · subst h0C
        rw [show escChar 0x0C = [0x5C, 0x66] from rfl]
        simp only [List.cons_append, List.nil_append]
        rw [psb_esc2 f 0x66 0x0C Z (by norm_num), hih]
        rfl
      by_cases h0D : c = 0x0D
      · subst h0D
        rw [show escChar 0x0D = [0x5C, 0x72] from rfl]
        simp only [List.cons_append, List.nil_append]
        rw [psb_esc2 f 0x72 0x0D Z (by norm_num), hih]
        rfl
      by_cases hctl : c < 0x20
      · rw [show escChar c = escU16 c from by
          unfold escChar
          rw [if_neg h22, if_neg h5c, if_neg h08, if_neg h09, if_neg h0A,
            if_neg h0C, if_neg h0D, if_pos hctl]]
        unfold escU16
        simp only [List.cons_append, List.nil_append]
        have h4x : parse4Hex (hexDig (c / 4096 % 16) :: hexDig (c / 256 % 16)
            :: hexDig (c / 16 % 16) :: hexDig (c % 16) :: Z) = some (c, Z) := by
          simpa using parse4Hex_escU16 c Z (by omega)
        rw [psb_u_single f _ Z c h4x (by omega), hih]
        rfl
      by_cases hlo7 : c < 0x7F
      · rw [show escChar c = [c] from by
          unfold escChar
          rw [if_neg h22, if_neg h5c, if_neg h08, if_neg h09, if_neg h0A,
            if_neg h0C, if_neg h0D, if_neg hctl, if_pos hlo7]]
        simp only [List.cons_append, List.nil_append]
        rw [psb_plain f c Z h22 h5c hctl, hih]
        rfl
      by_cases hbmp : c < 0x10000
      · have hnosur : c < 0xD800 ∨ 0xE000 ≤ c := by
          rcases hcw with h | h
          · exact Or.inl h
          · exact Or.inr h.1
        rw [show escChar c = escU16 c from by
          unfold escChar
          rw [if_neg h22, if_neg h5c, if_neg h08, if_neg h09, if_neg h0A,
            if_neg h0C, if_neg h0D, if_neg hctl, if_neg hlo7, if_pos hbmp]]
        unfold escU16
        simp only [List.cons_append, List.nil_append]
        have h4x : parse4Hex (hexDig (c / 4096 % 16) :: hexDig (c / 256 % 16)
            :: hexDig (c / 16 % 16) :: hexDig (c % 16) :: Z) = some (c, Z) := by
          simpa using parse4Hex_escU16 c Z hbmp
        rw [psb_u_single f _ Z c h4x (by omega), hih]
        rfl
      · have hhi : c < 0x110000 := by
          rcases hcw with h | h
          · omega
          · exact h.2
        rw [show escChar c = escU16 (0xD800 + (c - 0x10000) / 0x400)
            ++ escU16 (0xDC00 + (c - 0x10000) % 0x400) from by
          unfold escChar
          rw [if_neg h22, if_neg h5c, if_neg h08, if_neg h09, if_neg h0A,
            if_neg h0C, if_neg h0D, if_neg hctl, if_neg hlo7, if_neg hbmp]]
        have hq : (c - 0x10000) / 0x400 < 0x400 := by omega
        have hr : (c - 0x10000) % 0x400 < 0x400 := Nat.mod_lt _ (by omega)
        conv in escU16 (0xD800 + (c - 0x10000) / 0x400) => unfold escU16
        conv in escU16 (0xDC00 + (c - 0x10000) % 0x400) => unfold escU16
        simp only [List.cons_append, List.nil_append, List.append_assoc]
        rw [psb_u_pair f _ _ Z (0xD800 + (c - 0x10000) / 0x400)
          (0xDC00 + (c - 0x10000) % 0x400)
          (by
            have := parse4Hex_escU16 (0xD800 + (c - 0x10000) / 0x400)
              ([0x5C, 0x75, hexDig ((0xDC00 + (c - 0x10000) % 0x400) / 4096 % 16),
                hexDig ((0xDC00 + (c - 0x10000) % 0x400) / 256 % 16),
                hexDig ((0xDC00 + (c - 0x10000) % 0x400) / 16 % 16),
                hexDig ((0xDC00 + (c - 0x10000) % 0x400) % 16)] ++ Z)
              (by omega)
            simpa using this)
          (by omega)
          (parse4Hex_escU16 (0xDC00 + (c - 0x10000) % 0x400) Z (by omega))
          (by omega), hih]
        have hrecomb : 0x10000
            + ((0xD800 + (c - 0x10000) / 0x400) - 0xD800) * 0x400
            + ((0xDC00 + (c - 0x10000) % 0x400) - 0xDC00) = c := by
          have := Nat.div_add_mod (c - 0x10000) 0x400
          omega
        rw [hrecomb]
        rfl

theorem escChar_ne_nil (c : Nat) : escChar c ≠ [] := by
  unfold escChar
  by_cases h1 : c = 0x22
  · simp only [if_pos h1]; simp
  simp only [if_neg h1]
  by_cases h2 : c = 0x5C
  · simp only [if_pos h2]; simp
  simp only [if_neg h2]
  by_cases h3 : c = 0x08
  · simp only [if_pos h3]; simp
  simp only [if_neg h3]
  by_cases h4 : c = 0x09
  · simp only [if_pos h4]; simp
  simp only [if_neg h4]
  by_cases h5 : c = 0x0A
  · simp only [if_pos h5]; simp
  simp only [if_neg h5]
  by_cases h6 : c = 0x0C
  · simp only [if_pos h6]; simp
  simp only [if_neg h6]
  by_cases h7 : c = 0x0D
  · simp only [if_pos h7]; simp
  simp only [if_neg h7]
  by_cases h8 : c < 0x20
  · simp only [if_pos h8]; simp [escU16]
  simp only [if_neg h8]
  by_cases h9 : c < 0x7F
  · simp only [if_pos h9]; simp
  simp only [if_neg h9]
  by_cases h10 : c < 0x10000
  · simp only [if_pos h10]; simp [escU16]
  simp only [if_neg h10]
  simp [escU16]

theorem encStrBody_length_ge (s : List Nat) :
    s.length ≤ (encStrBody s).length := by
  induction s with
  | nil => simp [encStrBody]
  | cons c cs ih =>
    have h1 : 1 ≤ (escChar c).length :=
      List.length_pos.mpr (escChar_ne_nil c)
    simp only [encStrBody, List.length_append, List.length_cons]
    omega

/-- Round trip of a full string literal through the self-fueled
scanner. -/
theorem parseStrBody_encStr (s rest : List Nat) (hw : WfStr s) :
    parseStrBody (encStrBody s ++ 0x22 :: rest) = some (s, rest) := by
  unfold parseStrBody
  refine parseStrBodyF_encStrBody s _ rest ?_ hw
  have := encStrBody_length_ge s
  simp only [List.length_append, List.length_cons]
  omega

/-- `json.dumps` of an axis value. -/
def encJVal : JVal → List Nat
  | .jint n => encInt n
  | .jstr s => encStr s

/-- Parse a canonical JSON value of the axes dict (string or int). -/
def parseJVal (l : List Nat) : Option (JVal × List Nat) :=
  match l with
  | [] => none
  | c :: cs =>
    if c = 0x22 then (parseStrBody cs).map (fun pr => (JVal.jstr pr.1, pr.2))
    else (parseJInt l).map (fun pr => (JVal.jint pr.1, pr.2))

theorem encInt_head (n : Int) :
    ∃ d ds, encInt n = d :: ds ∧ (d = 0x2D ∨ (0x30 ≤ d ∧ d ≤ 0x39)) := by
  by_cases hn : n < 0
  · exact ⟨0x2D, natDecimal (-n).toNat, by rw [encInt, if_pos hn], Or.inl rfl⟩
  · obtain ⟨d, ds, hds⟩ :=
      List.exists_cons_of_ne_nil (natDecimal_ne_nil n.toNat)
    refine ⟨d, ds, by rw [encInt, if_neg hn, hds], Or.inr ?_⟩
    exact natDecimal_digits _ d (by rw [hds]; exact List.mem_cons_self _ _)

theorem parseJVal_encJVal (v : JVal) (rest : List Nat) (hw : WfVal v)
    (hrest : NotDigitHead rest) :
    parseJVal (encJVal v ++ rest) = some (v, rest) := by
  cases v with
  | jint n =>
    obtain ⟨d, ds, hds, hd⟩ := encInt_head n
    have hd22 : ¬d = 0x22 := by omega
    simp only [encJVal]
    rw [hds, List.cons_append]
    simp only [parseJVal, if_neg hd22]
    rw [← List.cons_append, ← hds, parseJInt_encInt n rest hrest]
    rfl
  | jstr s =>
    simp only [encJVal, encStr, List.cons_append, List.append_assoc,
      List.nil_append, List.singleton_append]
    simp only [parseJVal, if_pos rfl]
    rw [parseStrBody_encStr s rest hw]
    rfl

/-- `"key": value` fragment of `json.dumps` (key separator `": "`). -/
def encPair (k : List Nat) (v : JVal) : List Nat :=
  encStr k ++ 0x3A :: 0x20 :: encJVal v

/-- `", "`-joined remaining items plus the closing brace. -/
def encTail : List (List Nat × JVal) → List Nat
  | [] => [0x7D]
  | p :: ps => 0x2C :: 0x20 :: (encPair p.1 p.2 ++ encTail ps)

/-- `json.dumps` of a dict (item separator `", "`). -/
def encObj : List (List Nat × JVal) → List Nat
  | [] => [0x7B, 0x7D]
  | p :: ps => 0x7B :: (encPair p.1 p.2 ++ encTail ps)

theorem encPair_cons (k : List Nat) (v : JVal) (X : List Nat) :
    encPair k v ++ X
      = 0x22 :: (encStrBody k
          ++ 0x22 :: 0x3A :: 0x20 :: (encJVal v ++ X)) := by
  simp [encPair, encStr, List.cons_append, List.append_assoc]

/-- Parse one `"key": value` pair. -/
def parsePair (l : List Nat) : Option ((List Nat × JVal) × List Nat) :=
  match l with
  | [] => none
  | c :: cs =>
    if c = 0x22 then
      match parseStrBody cs with
      | none => none
      | some (k, r1) =>
        match r1 with
        | 0x3A :: 0x20 :: r2 =>
          match parseJVal r2 with
          | none => none
          | some (v, r3) => some ((k, v), r3)
        | _ => none
    else none

theorem parsePair_encPair (k : List Nat) (v : JVal) (rest : List Nat)
    (hk : WfStr k) (hv : WfVal v) (hrest : NotDigitHead rest) :
    parsePair (encPair k v ++ rest) = some ((k, v), rest) := by
  rw [encPair_cons]
  simp only [parsePair, if_pos rfl,
    parseStrBody_encStr k _ hk, parseJVal_encJVal v rest hv hrest]
  simp

/-- The remaining items of an object after the first pair, fueled by
the number of pairs still allowed. -/
def parseObjTailF : Nat → List Nat → Option (List (List Nat × JVal) × List Nat)
  | fuel, l =>
    match l with
    | 0x7D :: r => some ([], r)
    | 0x2C :: 0x20 :: r =>
      match fuel with
      | 0 => none
      | fuel1 + 1 =>
        match parsePair r with
        | none => none
        | some (p, r1) =>
          match parseObjTailF fuel1 r1 with
          | none => none
          | some (ps, r2) => some (p :: ps, r2)
    | _ => none

/-- Object-tail scan with the always-sufficient fuel. -/
def parseObjTail (l : List Nat) : Option (List (List Nat × JVal) × List Nat) :=
  parseObjTailF l.length l

/-- Parse a canonical JSON object into its pair list. -/
def parseObj (l : List Nat) : Option (List (List Nat × JVal) × List Nat) :=
  match l with
  | 0x7B :: 0x7D :: r => some ([], r)
  | 0x7B :: r =>
    match parsePair r with
    | none => none
    | some (p, r1) =>
      match parseObjTail r1 with
      | none => none
      | some (ps, r2) => some (p :: ps, r2)
  | _ => none

/-- `json.loads` requires the document to cover the whole input. -/
def parseObjAll (l : List Nat) : Option (List (List Nat × JVal)) :=
  match parseObj l with
  | some (obj, []) => some obj
  | _ => none

/-- Every key and every string value is a scalar string. -/
def WfPairs (ps : List (List Nat × JVal)) : Prop :=
  ∀ p ∈ ps, WfStr p.1 ∧ WfVal p.2

theorem encTail_notDigitHead (ps : List (List Nat × JVal))
    (rest : List Nat) : NotDigitHead (encTail ps ++ rest) := by
  cases ps <;> simp [encTail, NotDigitHead]

theorem pot_brace (fuel : Nat) (r : List Nat) :
    parseObjTailF fuel (0x7D :: r) = some ([], r) := by
  cases fuel <;> rfl

theorem pot_comma (fuel : Nat) (r : List Nat) :
    parseObjTailF (fuel + 1) (0x2C :: 0x20 :: r)
      = match parsePair r with
        | none => none
        | some (p, r1) =>
          match parseObjTailF fuel r1 with
          | none => none
          | some (ps, r2) => some (p :: ps, r2) := rfl

theorem parseObjTailF_encTail :
    ∀ (ps : List (List Nat × JVal)) (fuel : Nat) (rest : List Nat),
      ps.length ≤ fuel → WfPairs ps →
      parseObjTailF fuel (encTail ps ++ rest) = some (ps, rest) := by
  intro ps
  induction ps with
  | nil =>
    intro fuel rest _ _
    simpa [encTail] using pot_brace fuel rest
  | cons p ps ih =>
    intro fuel rest hlen hw
    have hp := hw p (List.mem_cons_self _ _)
    have hps : WfPairs ps := fun q hq => hw q (List.mem_cons_of_mem _ hq)
    cases fuel with
    | zero => simp at hlen
    | succ f =>
      have hlen2 : ps.length ≤ f := by simpa using hlen
      show parseObjTailF (f + 1)
        ((0x2C :: 0x20 :: (encPair p.1 p.2 ++ encTail ps)) ++ rest)
        = some (p :: ps, rest)
      simp only [List.cons_append, List.append_assoc]
      rw [pot_comma]
      simp only [parsePair_encPair p.1 p.2 _ hp.1 hp.2
          (encTail_notDigitHead ps rest),
        ih f rest hlen2 hps]

theorem encTail_length_ge (ps : List (List Nat × JVal)) :
    ps.length ≤ (encTail ps).length := by
  induction ps with
  | nil => simp [encTail]
  | cons p ps ih =>
    simp only [encTail, List.length_cons, List.length_append]
    omega

theorem parseObjTail_encTail (ps : List (List Nat × JVal))
    (rest : List Nat) (hw : WfPairs ps) :
    parseObjTail (encTail ps ++ rest) = some (ps, rest) := by
  unfold parseObjTail
  refine parseObjTailF_encTail ps _ rest ?_ hw
  have := encTail_length_ge ps
  simp only [List.length_append]
  omega

/-- Round trip of the object codec on any pair list with scalar
strings. -/
theorem parseObj_encObj (ps : List (List Nat × JVal)) (rest : List Nat)
    (hw : WfPairs ps) :
    parseObj (encObj ps ++ rest) = some (ps, rest) := by
  cases ps with
  | nil => rfl
  | cons p ps =>
    have hp := hw p (List.mem_cons_self _ _)
    have hps : WfPairs ps := fun q hq => hw q (List.mem_cons_of_mem _ hq)
    show parseObj ((0x7B :: (encPair p.1 p.2 ++ encTail ps)) ++ rest)
      = some (p :: ps, rest)
    rw [List.cons_append, List.append_assoc, encPair_cons]
    simp only [parseObj, ← encPair_cons,
      parsePair_encPair p.1 p.2 _ hp.1 hp.2 (encTail_notDigitHead ps rest),
      parseObjTail_encTail ps rest hps]

theorem parseObjAll_encObj (ps : List (List Nat × JVal)) (hw : WfPairs ps) :
    parseObjAll (encObj ps) = some ps := by
  unfold parseObjAll
  rw [show encObj ps = encObj ps ++ [] by simp, parseObj_encObj ps [] hw]

/-! ## §9 The index record codec (`ndtiff/ndtiff_index.py`) -/

/-- The value stored in an entry's `axes_key` attribute.  A writer- or
caller-constructed entry holds the frozenset of (axis-name, value)
pairs (modeled by the pair list); `unpack_single_index_entry` instead
passes `axes.items` — the *bound method* of the parsed dict, not its
items — so a decoded entry holds a method object.  In Python a
frozenset never equals a bound method, which the separate constructors
model. -/
inductive AxesKeyVal where
  | fset (l : List (List Nat × JVal))
  | itemsMethod (d : List (List Nat × JVal))
deriving DecidableEq

/-- `NDTiffIndexEntry` (ndtiff_index.py lines 34–44).  Strings are
modeled by their UTF-8 bytes / code points. -/
structure NDTiffIndexEntry where
  axes_key : AxesKeyVal
  pix_offset : Nat
  image_width : Nat
  image_height : Nat
  metadata_length : Nat
  metadata_offset : Nat
  pixel_type : Nat
  pixel_compression : Nat
  metadata_compression : Nat
  filename : List Nat
deriving DecidableEq

/-- The `NDTiffIndexEntry.__init__` constructor: compressions are
always `UNCOMPRESSED = 0`. -/
def mkEntry (ak : AxesKeyVal) (pixel_type pix_offset image_width
    image_height md_offset md_length : Nat) (filename : List Nat) :
    NDTiffIndexEntry :=
  { axes_key := ak
    pix_offset := pix_offset
    image_width := image_width
    image_height := image_height
    metadata_length := md_length
    metadata_offset := md_offset
    pixel_type := pixel_type
    pixel_compression := 0
    metadata_compression := 0
    filename := filename }

/-- The dict comprehension `{axis_name: position for axis_name,
position in self.axes_key}` (line 140): an insertion-ordered dict that
keeps the first position of a repeated key and its last value. -/
def dictOfPairs (l : List (List Nat × JVal)) : List (List Nat × JVal) :=
  l.foldl (fun acc p => aset acc p.1 p.2) []

/-- `NDTiffIndexEntry.as_byte_buffer` (ndtiff_index.py lines 139–153):
serialize the axes dict as UTF-8 JSON, then the filename, then the
eight `uint32` fields `pixel_offset, image_width, image_height,
pixel_type, pixel_compression, metadata_offset, metadata_length,
metadata_compression`.  Iterating `axes_key` raises `TypeError` on a
decoded entry (whose `axes_key` is a bound method); `struct.pack("I")`
raises on values `≥ 2^32`. -/
def as_byte_buffer (e : NDTiffIndexEntry) : Except PyErr (List Nat) :=
  match e.axes_key with
  | .itemsMethod _ => .error .typeError
  | .fset l =>
    let axes := dictOfPairs l
    let axes_key_bytes := encObj axes
    if axes_key_bytes.length < 4294967296 ∧ e.filename.length < 4294967296
        ∧ e.pix_offset < 4294967296 ∧ e.image_width < 4294967296
        ∧ e.image_height < 4294967296 ∧ e.pixel_type < 4294967296
        ∧ e.pixel_compression < 4294967296 ∧ e.metadata_offset < 4294967296
        ∧ e.metadata_length < 4294967296
        ∧ e.metadata_compression < 4294967296 then
      .ok (u32le axes_key_bytes.length ++ axes_key_bytes
        ++ u32le e.filename.length ++ e.filename
        ++ u32le e.pix_offset ++ u32le e.image_width ++ u32le e.image_height
        ++ u32le e.pixel_type ++ u32le e.pixel_compression
        ++ u32le e.metadata_offset ++ u32le e.metadata_length
        ++ u32le e.metadata_compression)
    else .error .structError

/-- Result of `unpack_single_index_entry`: `terminated` models the
`axes_length == 0` warning-and-`None` return; `err` models a raised
exception. -/
inductive UnpackResult where
  | terminated
  | err (e : PyErr)
  | ok (position : Nat) (axes : List (List Nat × JVal))
      (entry : NDTiffIndexEntry)
deriving DecidableEq

/-- `NDTiffIndexEntry.unpack_single_index_entry(data, position)`
(ndtiff_index.py lines 92–115): read the axes length (0 means the
stream terminator), JSON-parse the axes dict, read the filename, then
the eight `uint32` fields, and build the entry — passing `axes.items`
(the bound method) as its `axes_key`.  Returns the new position and the
axes dict alongside the entry. -/
def unpack_single_index_entry (data : List Nat) (position : Nat) :
    UnpackResult :=
  match readU32 data position with
  | none => .err .structError
  | some axes_length =>
    if axes_length = 0 then .terminated
    else
      match parseObjAll (sliceBytes data (position + 4) axes_length) with
      | none => .err .valueError
      | some axes =>
        let position1 := position + axes_length + 4
        match readU32 data position1 with
        | none => .err .structError
        | some filename_length =>
          let filename := sliceBytes data (position1 + 4) filename_length
          let position2 := position1 + 4 + filename_length
          if (sliceBytes data position2 32).length = 32 then
            let po := leVal (sliceBytes data position2 4)
            let w := leVal (sliceBytes data (position2 + 4) 4)
            let h := leVal (sliceBytes data (position2 + 8) 4)
            let pt := leVal (sliceBytes data (position2 + 12) 4)
            let mo := leVal (sliceBytes data (position2 + 20) 4)
            let ml := leVal (sliceBytes data (position2 + 24) 4)
            .ok (position2 + 32) axes
              (mkEntry (.itemsMethod axes) pt po w h mo ml filename)
          else .err .structError

theorem sliceBytes_at (pre mid post : List Nat) (pos len : Nat)
    (hpos : pos = pre.length) (hlen : len = mid.length) :
    sliceBytes (pre ++ (mid ++ post)) pos len = mid := by
  subst hpos
  subst hlen
  simp [sliceBytes, List.drop_left, List.take_left]

theorem readU32_at (pre post : List Nat) (v pos : Nat)
    (hv : v < 4294967296) (hpos : pos = pre.length) :
    readU32 (pre ++ (u32le v ++ post)) pos = some v := by
  unfold readU32
  rw [sliceBytes_at pre (u32le v) post pos 4 hpos (u32le_length v).symm]
  rw [if_pos (u32le_length v), leVal_u32le v hv]

theorem sliceBytes_shift (a b : List Nat) (pos len : Nat) :
    sliceBytes (a ++ b) (a.length + pos) len = sliceBytes b pos len := by
  simp [sliceBytes, List.drop_append]

theorem encObj_ne_nil (ps : List (List Nat × JVal)) : encObj ps ≠ [] := by
  cases ps <;> simp [encObj]

theorem aset_not_mem {k b : Type} [DecidableEq k] (acc : List (k × b))
    (key : k) (v : b) (h : ∀ q ∈ acc, q.1 ≠ key) :
    aset acc key v = acc ++ [(key, v)] := by
  induction acc with
  | nil => rfl
  | cons q rest ih =>
    obtain ⟨a, w⟩ := q
    have ha : a ≠ key := h (a, w) (List.mem_cons_self _ _)
    simp only [aset, if_neg ha, List.cons_append]
    rw [ih (fun q hq => h q (List.mem_cons_of_mem _ hq))]

theorem dictOfPairs_nodup (l : List (List Nat × JVal))
    (h : (l.map Prod.fst).Nodup) : dictOfPairs l = l := by
  suffices haux : ∀ (l acc : List (List Nat × JVal)),
      (l.map Prod.fst).Nodup →
      (∀ q ∈ acc, ∀ p ∈ l, q.1 ≠ p.1) →
      l.foldl (fun acc p => aset acc p.1 p.2) acc = acc ++ l by
    simpa using haux l [] h (by simp)
  intro l
  induction l with
  | nil => intro acc _ _; simp
  | cons p rest ih =>
    intro acc hnd hdisj
    obtain ⟨a, v⟩ := p
    simp only [List.foldl_cons]
    rw [aset_not_mem acc a v
      (fun q hq => hdisj q hq (a, v) (List.mem_cons_self _ _))]
    have hmap : (a :: rest.map Prod.fst).Nodup := by simpa using hnd
    have hnotin : a ∉ rest.map Prod.fst := (List.nodup_cons.mp hmap).1
    rw [ih (acc ++ [(a, v)]) (List.nodup_cons.mp hmap).2 ?_]
    · simp
    · intro q hq p2 hp2
      rcases List.mem_append.mp hq with hq | hq
      · exact hdisj q hq p2 (List.mem_cons_of_mem _ hp2)
      · simp only [List.mem_singleton] at hq
        subst hq
        intro he
        apply hnotin
        have he2 : a = p2.1 := he
        rw [he2]
        exact List.mem_map_of_mem Prod.fst hp2

/-- The byte layout `as_byte_buffer` produces, in right-associated
form. -/
def encodeEntryBytes (axes : List (List Nat × JVal))
    (pt po w h mo ml pc mc : Nat) (fn : List Nat) : List Nat :=
  u32le (encObj axes).length ++ (encObj axes
    ++ (u32le fn.length ++ (fn
    ++ (u32le po ++ (u32le w ++ (u32le h ++ (u32le pt ++ (u32le pc
    ++ (u32le mo ++ (u32le ml ++ u32le mc))))))))))

/-- Decoding an encoded record at position 0 recovers the axes dict and
all scalar fields; the decoded entry's `axes_key` is the dict's
`items` bound method. -/
theorem unpack_encodeEntryBytes (axes : List (List Nat × JVal))
    (pt po w h mo ml pc mc : Nat) (fn : List Nat) (rest : List Nat)
    (hwf : WfPairs axes)
    (hpo : po < 4294967296) (hw : w < 4294967296) (hh : h < 4294967296)
    (hpt : pt < 4294967296) (hpc : pc < 4294967296)
    (hmo : mo < 4294967296) (hml : ml < 4294967296)
    (hmc : mc < 4294967296)
    (haxb : (encObj axes).length < 4294967296)
    (hfnb : fn.length < 4294967296) :
    unpack_single_index_entry
        (encodeEntryBytes axes pt po w h mo ml pc mc fn ++ rest) 0
      = .ok (encodeEntryBytes axes pt po w h mo ml pc mc fn).length axes
          (mkEntry (.itemsMethod axes) pt po w h mo ml fn) := by
  set J := encObj axes with hJ
  set A := J.length with hA
  set F := fn.length with hF
  set B8 : List Nat := u32le po ++ (u32le w ++ (u32le h ++ (u32le pt
    ++ (u32le pc ++ (u32le mo ++ (u32le ml ++ u32le mc)))))) with hB8
  have hdata : encodeEntryBytes axes pt po w h mo ml pc mc fn ++ rest
      = u32le A ++ (J ++ (u32le F ++ (fn ++ (B8 ++ rest)))) := by
    simp [encodeEntryBytes, hB8, List.append_assoc]
  have h1 : readU32 (encodeEntryBytes axes pt po w h mo ml pc mc fn ++ rest) 0
      = some A := by
    rw [hdata]
    exact readU32_at [] _ A 0 haxb rfl
  have hA0 : ¬(A = 0) := by
    simp only [hA, hJ]
    intro hc
    exact encObj_ne_nil axes (List.length_eq_zero.mp hc)
  have h2 : sliceBytes (encodeEntryBytes axes pt po w h mo ml pc mc fn ++ rest)
      (0 + 4) A = J := by
    rw [hdata]
    exact sliceBytes_at (u32le A) J _ (0 + 4) A (by simp [u32le]) rfl
  have h3 : parseObjAll J = some axes := parseObjAll_encObj axes hwf
  have h4 : readU32 (encodeEntryBytes axes pt po w h mo ml pc mc fn ++ rest)
      (0 + A + 4) = some F := by
    rw [hdata, ← List.append_assoc]
    exact readU32_at (u32le A ++ J) _ F (0 + A + 4)
      hfnb (by simp [u32le, hA])
  have h5 : sliceBytes (encodeEntryBytes axes pt po w h mo ml pc mc fn ++ rest)
      (0 + A + 4 + 4) F = fn := by
    rw [hdata, ← List.append_assoc, ← List.append_assoc]
    exact sliceBytes_at (u32le A ++ J ++ u32le F) fn _ _ F
      (by simp [u32le, hA]) rfl
  -- the 32-byte block of the eight uint32 fields
  have hB8len : B8.length = 32 := by simp [hB8, u32le]
  have hpre2 : encodeEntryBytes axes pt po w h mo ml pc mc fn ++ rest
      = (u32le A ++ J ++ u32le F ++ fn) ++ (B8 ++ rest) := by
    rw [hdata]
    simp [List.append_assoc]
  have hpre2len : (u32le A ++ J ++ u32le F ++ fn).length
      = 0 + A + 4 + 4 + F := by
    simp only [List.length_append, u32le_length]
    omega
  have hblock : sliceBytes
      (encodeEntryBytes axes pt po w h mo ml pc mc fn ++ rest)
      (0 + A + 4 + 4 + F) 32 = B8 := by
    rw [hpre2]
    exact sliceBytes_at _ B8 rest _ 32 hpre2len.symm hB8len.symm
  have hblocklen : (sliceBytes
      (encodeEntryBytes axes pt po w h mo ml pc mc fn ++ rest)
      (0 + A + 4 + 4 + F) 32).length = 32 := by
    rw [hblock, hB8len]
  have hslice : ∀ (pre post2 : List Nat) (v pos : Nat),
      encodeEntryBytes axes pt po w h mo ml pc mc fn ++ rest
        = pre ++ (u32le v ++ post2) →
      pos = pre.length →
      sliceBytes (encodeEntryBytes axes pt po w h mo ml pc mc fn ++ rest)
        pos 4 = u32le v := by
    intro pre post2 v pos hsplit hpos
    rw [hsplit]
    exact sliceBytes_at pre (u32le v) post2 pos 4 hpos rfl
  have hv0 : sliceBytes
      (encodeEntryBytes axes pt po w h mo ml pc mc fn ++ rest)
      (0 + A + 4 + 4 + F) 4 = u32le po :=
    hslice (u32le A ++ J ++ u32le F ++ fn)
      (u32le w ++ (u32le h ++ (u32le pt ++ (u32le pc ++ (u32le mo
        ++ (u32le ml ++ (u32le mc ++ rest))))))) po _
      (by rw [hdata]; simp [hB8, List.append_assoc]) hpre2len.symm
  have hv1 : sliceBytes
      (encodeEntryBytes axes pt po w h mo ml pc mc fn ++ rest)
      (0 + A + 4 + 4 + F + 4) 4 = u32le w :=
    hslice (u32le A ++ J ++ u32le F ++ fn ++ u32le po)
      (u32le h ++ (u32le pt ++ (u32le pc ++ (u32le mo
        ++ (u32le ml ++ (u32le mc ++ rest)))))) w _
      (by rw [hdata]; simp [hB8, List.append_assoc])
      (by simp only [List.length_append, u32le_length]; omega)
  have hv2 : sliceBytes
      (encodeEntryBytes axes pt po w h mo ml pc mc fn ++ rest)
      (0 + A + 4 + 4 + F + 8) 4 = u32le h :=
    hslice (u32le A ++ J ++ u32le F ++ fn ++ u32le po ++ u32le w)
      (u32le pt ++ (u32le pc ++ (u32le mo
        ++ (u32le ml ++ (u32le mc ++ rest))))) h _
      (by rw [hdata]; simp [hB8, List.append_assoc])
      (by simp only [List.length_append, u32le_length]; omega)
  have hv3 : sliceBytes
      (encodeEntryBytes axes pt po w h mo ml pc mc fn ++ rest)
      (0 + A + 4 + 4 + F + 12) 4 = u32le pt :=
    hslice (u32le A ++ J ++ u32le F ++ fn ++ u32le po ++ u32le w ++ u32le h)
      (u32le pc ++ (u32le mo ++ (u32le ml ++ (u32le mc ++ rest)))) pt _
      (by rw [hdata]; simp [hB8, List.append_assoc])
      (by simp only [List.length_append, u32le_length]; omega)
  have hv5 : sliceBytes
      (encodeEntryBytes axes pt po w h mo ml pc mc fn ++ rest)
      (0 + A + 4 + 4 + F + 20) 4 = u32le mo :=
    hslice (u32le A ++ J ++ u32le F ++ fn ++ u32le po ++ u32le w ++ u32le h
        ++ u32le pt ++ u32le pc)
      (u32le ml ++ (u32le mc ++ rest)) mo _
      (by rw [hdata]; simp [hB8, List.append_assoc])
      (by simp only [List.length_append, u32le_length]; omega)
  have hv6 : sliceBytes
      (encodeEntryBytes axes pt po w h mo ml pc mc fn ++ rest)
      (0 + A + 4 + 4 + F + 24) 4 = u32le ml :=
    hslice (u32le A ++ J ++ u32le F ++ fn ++ u32le po ++ u32le w ++ u32le h
        ++ u32le pt ++ u32le pc ++ u32le mo)
      (u32le mc ++ rest) ml _
      (by rw [hdata]; simp [hB8, List.append_assoc])
      (by simp only [List.length_append, u32le_length]; omega)
  have hlen : (encodeEntryBytes axes pt po w h mo ml pc mc fn).length
      = 0 + A + 4 + 4 + F + 32 := by
    simp only [encodeEntryBytes, List.length_append, u32le_length]
    rw [← hJ]
    omega
  simp only [unpack_single_index_entry, h1, if_neg hA0, h2, h3, h4, h5,
    hblocklen, if_pos, hv0, hv1, hv2, hv3, hv5, hv6,
    leVal_u32le po hpo, leVal_u32le w hw, leVal_u32le h hh,
    leVal_u32le pt hpt, leVal_u32le mo hmo, leVal_u32le ml hml]
  rw [hlen]

/-- **C2** (amended): encoding an index entry whose `axes_key` is a set
of (axis-name, value) pairs with `as_byte_buffer` and decoding the bytes
with `unpack_single_index_entry` recovers the axes dict, the filename
and the six scalar fields `pix_offset, image_width, image_height,
pixel_type, metadata_offset, metadata_length` exactly; but the decoded
entry stores the parsed dict itself in `axes_key` (the `axes.items`
bound method in the Python source), not the original pair set, so the
decoded entry is not equal to the original entry. -/
theorem C2_index_entry_round_trip (l : List (List Nat × JVal))
    (pt po w h mo ml : Nat) (fn : List Nat)
    (hwf : WfPairs l) (hnd : (l.map Prod.fst).Nodup)
    (hpo : po < 4294967296) (hw : w < 4294967296) (hh : h < 4294967296)
    (hpt : pt < 4294967296) (hmo : mo < 4294967296) (hml : ml < 4294967296)
    (haxb : (encObj l).length < 4294967296) (hfnb : fn.length < 4294967296) :
    ∃ bytes,
      as_byte_buffer (mkEntry (.fset l) pt po w h mo ml fn) = .ok bytes
      ∧ unpack_single_index_entry bytes 0
          = .ok bytes.length l (mkEntry (.itemsMethod l) pt po w h mo ml fn) := by
  refine ⟨encodeEntryBytes l pt po w h mo ml 0 0 fn, ?_, ?_⟩
  · simp only [as_byte_buffer, mkEntry]
    rw [dictOfPairs_nodup l hnd]
    rw [if_pos ⟨haxb, hfnb, hpo, hw, hh, hpt, by omega, hmo, hml, by omega⟩]
    simp [encodeEntryBytes, List.append_assoc]
  · have hu := unpack_encodeEntryBytes l pt po w h mo ml 0 0 fn [] hwf
      hpo hw hh hpt (by omega) hmo hml (by omega) haxb hfnb
    simpa using hu

/-- **C2** witness: a concrete one-axis entry at concrete field values,
with every hypothesis of the round-trip theorem discharged by
evaluation. -/
theorem C2_index_entry_round_trip_witness :
    WfPairs [([97], JVal.jint 0)]
    ∧ ([([97], JVal.jint 0)].map Prod.fst).Nodup
    ∧ ∃ bytes,
        as_byte_buffer (mkEntry (.fset [([97], JVal.jint 0)]) 1 2 3 4 5 6 [98])
          = .ok bytes
        ∧ unpack_single_index_entry bytes 0
            = .ok bytes.length [([97], JVal.jint 0)]
                (mkEntry (.itemsMethod [([97], JVal.jint 0)]) 1 2 3 4 5 6 [98]) :=
  ⟨by simp [WfPairs, WfStr, WfVal], by decide,
   C2_index_entry_round_trip [([97], JVal.jint 0)] 1 2 3 4 5 6 [98]
     (by simp [WfPairs, WfStr, WfVal]) (by decide)
     (by omega) (by omega) (by omega) (by omega) (by omega) (by omega)
     (by simp [encObj, encPair, encStr, encStrBody, escChar, encJVal,
       encInt, natDecimal, encTail])
     (by decide)⟩

/-- **C2** counterexample to the claim as stated: a concrete entry whose
`axes_key` is the pair set \x7b(97, 0)\x7d encodes and decodes to an
entry that agrees on the filename and every scalar field yet is NOT
equal to the original, because the decoded `axes_key` holds the parsed
dict (the `axes.items` bound method in the source), not the pair set. -/
theorem C2_counterexample :
    ∃ bytes,
      as_byte_buffer (mkEntry (.fset [([97], JVal.jint 0)]) 1 2 3 4 5 6 [98])
        = .ok bytes
      ∧ unpack_single_index_entry bytes 0
          = .ok bytes.length [([97], JVal.jint 0)]
              (mkEntry (.itemsMethod [([97], JVal.jint 0)]) 1 2 3 4 5 6 [98])
      ∧ mkEntry (.itemsMethod [([97], JVal.jint 0)]) 1 2 3 4 5 6 [98]
          ≠ mkEntry (.fset [([97], JVal.jint 0)]) 1 2 3 4 5 6 [98] := by
  refine ⟨encodeEntryBytes [([97], JVal.jint 0)] 1 2 3 4 5 6 0 0 [98],
    ?_, ?_, by decide⟩
  · simp only [as_byte_buffer, mkEntry]
    rw [show dictOfPairs [([97], JVal.jint 0)] = [([97], JVal.jint 0)] from rfl]
    rw [if_pos ⟨by simp [encObj, encPair, encStr, encStrBody, escChar,
        encJVal, encInt, natDecimal, encTail],
      by decide, by omega, by omega, by omega, by omega, by omega,
      by omega, by omega, by omega⟩]
    simp [encodeEntryBytes, List.append_assoc]
  · have hu := unpack_encodeEntryBytes [([97], JVal.jint 0)] 1 2 3 4 5 6 0 0
      [98] [] (by simp [WfPairs, WfStr, WfVal])
      (by omega) (by omega) (by omega) (by omega) (by omega) (by omega)
      (by omega) (by omega)
      (by simp [encObj, encPair, encStr, encStrBody, escChar, encJVal,
        encInt, natDecimal, encTail])
      (by decide)
    simpa using hu

theorem readU32_shift (a b : List Nat) (pos : Nat) :
    readU32 (a ++ b) (a.length + pos) = readU32 b pos := by
  unfold readU32
  rw [sliceBytes_shift]

/-- Decoding shifted data at a shifted position gives the same result
with the returned position shifted by the prefix length. -/
theorem unpack_shift (pre b : List Nat) (pos : Nat) :
    unpack_single_index_entry (pre ++ b) (pre.length + pos)
      = match unpack_single_index_entry b pos with
        | .ok p a e => .ok (pre.length + p) a e
        | .terminated => .terminated
        | .err e => .err e := by
  cases h1 : readU32 b pos with
  | none =>
    simp only [unpack_single_index_entry, Nat.add_assoc, readU32_shift, h1]
  | some al =>
    by_cases h0 : al = 0
    · subst h0
      simp only [unpack_single_index_entry, Nat.add_assoc, readU32_shift,
        h1, if_true]
    · cases h2 : parseObjAll (sliceBytes b (pos + 4) al) with
      | none =>
        simp only [unpack_single_index_entry, Nat.add_assoc, readU32_shift,
          sliceBytes_shift, h1, if_neg h0, h2]
      | some axes =>
        cases h3 : readU32 b (pos + (al + 4)) with
        | none =>
          simp only [unpack_single_index_entry, Nat.add_assoc, readU32_shift,
            sliceBytes_shift, h1, if_neg h0, h2, h3]
        | some fl =>
          by_cases h4 : (sliceBytes b (pos + (al + (4 + (4 + fl)))) 32).length = 32
          · simp only [unpack_single_index_entry, Nat.add_assoc, readU32_shift,
              sliceBytes_shift, h1, if_neg h0, h2, h3]
            rw [if_pos h4, if_pos h4]
          · simp only [unpack_single_index_entry, Nat.add_assoc, readU32_shift,
              sliceBytes_shift, h1, if_neg h0, h2, h3]
            rw [if_neg h4, if_neg h4]

/-- `unpack_shift` specialized to decoding right at the end of the
prefix. -/
theorem unpack_shift0 (pre b : List Nat) :
    unpack_single_index_entry (pre ++ b) pre.length
      = match unpack_single_index_entry b 0 with
        | .ok p a e => .ok (pre.length + p) a e
        | .terminated => .terminated
        | .err e => .err e := by
  have h := unpack_shift pre b 0
  simpa using h

/-- The data of one index record: the axes dict and the six scalar
fields that `as_byte_buffer` serializes (compressions are always 0). -/
structure RecSpec where
  axes : List (List Nat × JVal)
  pixel_type : Nat
  pix_offset : Nat
  image_width : Nat
  image_height : Nat
  md_offset : Nat
  md_length : Nat
  filename : List Nat

/-- The byte serialization of one record, as written by
`as_byte_buffer` (compression fields 0). -/
def encodeRecord (r : RecSpec) : List Nat :=
  encodeEntryBytes r.axes r.pixel_type r.pix_offset r.image_width
    r.image_height r.md_offset r.md_length 0 0 r.filename

/-- The entry `unpack_single_index_entry` builds for a record (the
`axes_key` holds the parsed dict, via the `axes.items` bound method). -/
def entryOfRec (r : RecSpec) : NDTiffIndexEntry :=
  mkEntry (.itemsMethod r.axes) r.pixel_type r.pix_offset r.image_width
    r.image_height r.md_offset r.md_length r.filename

/-- Concatenation of serialized records: the body of an index file. -/
def encodeRecords : List RecSpec → List Nat
  | [] => []
  | r :: rs => encodeRecord r ++ encodeRecords rs

/-- A record whose scalar fields fit in `uint32`, whose axes dict is
well-formed JSON data, and whose variable-length parts fit in
`uint32`. -/
def WfRec (r : RecSpec) : Prop :=
  WfPairs r.axes ∧ r.pix_offset < 4294967296 ∧ r.image_width < 4294967296
    ∧ r.image_height < 4294967296 ∧ r.pixel_type < 4294967296
    ∧ r.md_offset < 4294967296 ∧ r.md_length < 4294967296
    ∧ (encObj r.axes).length < 4294967296 ∧ r.filename.length < 4294967296

/-- The `while position < len(data)` loop of `read_ndtiff_index`
(ndtiff_index.py lines 7–20), with explicit fuel; one unit of fuel per
iteration (the decoded position strictly increases, so
`data.length + 1` units always suffice).  The Python `frozenset` keys
are modeled by the axes pair lists; the second component records
whether the not-properly-terminated warning was issued. -/
def read_index_loopF : Nat → List Nat → Nat →
    List (List (List Nat × JVal) × NDTiffIndexEntry) →
    Except PyErr (List (List (List Nat × JVal) × NDTiffIndexEntry) × Bool)
  | 0, _, _, index => .ok (index, false)
  | fuel + 1, data, position, index =>
    if position < data.length then
      match unpack_single_index_entry data position with
      | .terminated => .ok (index, true)
      | .err e => .error e
      | .ok pos2 axes entry =>
          read_index_loopF fuel data pos2 (aset index axes entry)
    else .ok (index, false)

/-- `read_ndtiff_index(data)` (ndtiff_index.py lines 7–20). -/
def read_ndtiff_index (data : List Nat) :
    Except PyErr (List (List (List Nat × JVal) × NDTiffIndexEntry) × Bool) :=
  read_index_loopF (data.length + 1) data 0 []

theorem encodeRecords_length_ge (rs : List RecSpec) :
    rs.length ≤ (encodeRecords rs).length := by
  induction rs with
  | nil => simp [encodeRecords]
  | cons r rest ih =>
    have hpos : 0 < (encodeRecord r).length := by
      simp only [encodeRecord, encodeEntryBytes, List.length_append,
        u32le_length]
      omega
    simp only [encodeRecords, List.length_append, List.length_cons]
    omega

theorem read_index_loopF_run (rs : List RecSpec) (pre junk : List Nat)
    (idx : List (List (List Nat × JVal) × NDTiffIndexEntry)) (fuel : Nat)
    (hwf : ∀ r ∈ rs, WfRec r) (hfuel : rs.length < fuel) :
    read_index_loopF fuel (pre ++ (encodeRecords rs ++ (u32le 0 ++ junk)))
        pre.length idx
      = .ok (rs.foldl (fun i r => aset i r.axes (entryOfRec r)) idx, true) := by
  induction rs generalizing pre idx fuel with
  | nil =>
    cases fuel with
    | zero => omega
    | succ f =>
      have hlt : pre.length
          < (pre ++ (encodeRecords [] ++ (u32le 0 ++ junk))).length := by
        simp only [List.length_append, u32le_length]
        omega
      have hr : readU32 (pre ++ (encodeRecords [] ++ (u32le 0 ++ junk)))
          pre.length = some 0 := by
        have he : pre ++ (encodeRecords [] ++ (u32le 0 ++ junk))
            = pre ++ (u32le 0 ++ junk) := by simp [encodeRecords]
        rw [he]
        exact readU32_at pre junk 0 pre.length (by omega) rfl
      have hterm : unpack_single_index_entry
          (pre ++ (encodeRecords [] ++ (u32le 0 ++ junk))) pre.length
          = .terminated := by
        simp [unpack_single_index_entry, hr]
      simp only [read_index_loopF, if_pos hlt, hterm, List.foldl_nil]
  | cons r rest ih =>
    cases fuel with
    | zero => omega
    | succ f =>
      have hwfr : WfRec r := hwf r (List.mem_cons_self _ _)
      obtain ⟨hwfp, hpo, hw, hh, hpt, hmo, hml, haxb, hfnb⟩ := hwfr
      have hsplit : pre ++ (encodeRecords (r :: rest) ++ (u32le 0 ++ junk))
          = pre ++ (encodeRecord r
            ++ (encodeRecords rest ++ (u32le 0 ++ junk))) := by
        simp [encodeRecords, List.append_assoc]
      have hlt : pre.length
          < (pre ++ (encodeRecords (r :: rest) ++ (u32le 0 ++ junk))).length := by
        simp only [List.length_append, u32le_length]
        omega
      have hu : unpack_single_index_entry
          (pre ++ (encodeRecords (r :: rest) ++ (u32le 0 ++ junk))) pre.length
          = .ok (pre.length + (encodeRecord r).length) r.axes
              (entryOfRec r) := by
        rw [hsplit, unpack_shift0]
        have h0 := unpack_encodeEntryBytes r.axes r.pixel_type r.pix_offset
          r.image_width r.image_height r.md_offset r.md_length 0 0 r.filename
          (encodeRecords rest ++ (u32le 0 ++ junk)) hwfp hpo hw hh hpt
          (by omega) hmo hml (by omega) haxb hfnb
        simp only [encodeRecord, entryOfRec]
        rw [h0]
      simp only [read_index_loopF, if_pos hlt, hu, List.foldl_cons]
      have hpos2 : pre.length + (encodeRecord r).length
          = (pre ++ encodeRecord r).length := by simp
      have hD2 : pre ++ (encodeRecords (r :: rest) ++ (u32le 0 ++ junk))
          = (pre ++ encodeRecord r)
            ++ (encodeRecords rest ++ (u32le 0 ++ junk)) := by
        simp [encodeRecords, List.append_assoc]
      rw [hpos2, hD2]
      exact ih (pre ++ encodeRecord r) (aset idx r.axes (entryOfRec r)) f
        (fun r2 h2 => hwf r2 (List.mem_cons_of_mem _ h2))
        (by simp only [List.length_cons] at hfuel; omega)

/-- **C7**: parsing an index stream of serialized records followed by a
4-byte zero `axes_length` marker and arbitrary trailing junk consumes
the records sequentially from position 0, stops at the zero marker with
the not-properly-terminated warning issued (second component `true`),
and returns the mapping of all records parsed before that point; the
zero marker is a non-fatal end-of-stream signal, not an error. -/
theorem C7_index_stream_terminator (rs : List RecSpec) (junk : List Nat)
    (hwf : ∀ r ∈ rs, WfRec r) :
    read_ndtiff_index (encodeRecords rs ++ (u32le 0 ++ junk))
      = .ok (rs.foldl (fun i r => aset i r.axes (entryOfRec r)) [], true) := by
  have hf : rs.length < (encodeRecords rs ++ (u32le 0 ++ junk)).length + 1 := by
    have h := encodeRecords_length_ge rs
    simp only [List.length_append]
    omega
  have hrun := read_index_loopF_run rs [] junk []
    ((encodeRecords rs ++ (u32le 0 ++ junk)).length + 1) hwf hf
  unfold read_ndtiff_index
  simpa using hrun

/-- **C7** witness: one concrete record followed by the zero marker and
a junk byte. -/
theorem C7_index_stream_terminator_witness :
    (∀ r ∈ [RecSpec.mk [([97], JVal.jint 0)] 1 2 3 4 5 6 [98]], WfRec r)
    ∧ read_ndtiff_index
        (encodeRecords [RecSpec.mk [([97], JVal.jint 0)] 1 2 3 4 5 6 [98]]
          ++ (u32le 0 ++ [9]))
      = .ok ([RecSpec.mk [([97], JVal.jint 0)] 1 2 3 4 5 6 [98]].foldl
          (fun i r => aset i r.axes (entryOfRec r)) [], true) := by
  have hwf : ∀ r ∈ [RecSpec.mk [([97], JVal.jint 0)] 1 2 3 4 5 6 [98]],
      WfRec r := by
    intro r hr
    simp only [List.mem_singleton] at hr
    subst hr
    exact ⟨by simp [WfPairs, WfStr, WfVal], by decide, by decide, by decide,
      by decide, by decide, by decide,
      by simp [encObj, encPair, encStr, encStrBody, escChar, encJVal,
        encInt, natDecimal, encTail],
      by decide⟩
  exact ⟨hwf, C7_index_stream_terminator
    [RecSpec.mk [([97], JVal.jint 0)] 1 2 3 4 5 6 [98]] [9] hwf⟩

/-! ## §11 `SingleNDTiffWriter.write_image` / `SingleNDTiffReader`

The file is modeled as the list of bytes written so far (the writer only
appends, except for the 4-byte patch in `finished_writing`; the
pre-allocated tail of the real file is truncated away and never read).
`self.filename.split(os.sep)[-1]` is modeled by storing the final path
component in the state. -/

/-- A `uint16` little-endian, as packed by `struct.pack_into("<H", ...)`
for an in-range value. -/
def u16le (v : Nat) : List Nat := [v % 256, v / 256 % 256]

/-- The bytes of one row of a 2-D `uint16` array (numpy row-major
little-endian buffer). -/
def rowBytesU16 : List Nat → List Nat
  | [] => []
  | v :: vs => u16le v ++ rowBytesU16 vs

/-- The buffer of a whole 2-D `uint16` array, row-major. -/
def pixelBufU16 : List (List Nat) → List Nat
  | [] => []
  | r :: rs => rowBytesU16 r ++ pixelBufU16 rs

/-- Row-major concatenation of the element rows (`pixels.ravel()`). -/
def joinRows : List (List Nat) → List Nat
  | [] => []
  | r :: rs => r ++ joinRows rs

/-- `image_height, image_width = pixels.shape` (ndtiff_file.py
line 158): a `bytearray` has no `shape` attribute, so the first
statement of `write_image` raises `AttributeError`; a 3-D RGB array's
3-tuple fails to unpack into two names (`ValueError`). -/
def shape2 : PixelArr → Except PyErr (Nat × Nat)
  | .u16mat rows => .ok (rows.length, (rows.headD []).length)
  | .u8mat h w => .ok (h, w)
  | .rgb8 _ _ => .error .valueError
  | .byteArr _ => .error .attributeError

/-- `pixels.dtype == np.uint8` for the arrays the model carries
(unreachable for a `bytearray`, which fails at `pixels.shape` first). -/
def dtypeIsU8 : PixelArr → Bool
  | .u8mat _ _ => true
  | .rgb8 _ _ => true
  | _ => false

/-- `struct.pack_into("<H", ...)`: raises `struct.error` when the value
does not fit in 16 bits. -/
def packH (v : Nat) : Except PyErr (List Nat) :=
  if v < 65536 then .ok (u16le v) else .error .structError

/-- `struct.pack_into("<I", ...)`: raises `struct.error` when the value
does not fit in 32 bits. -/
def packI (v : Nat) : Except PyErr (List Nat) :=
  if v < 4294967296 then .ok (u32le v) else .error .structError

/-- `_write_ifd_entry(buffer, tag, dtype, count, value, position)`
(ndtiff_file.py lines 250–252): 12 bytes `<HHII`. -/
def ifdEntry (tag dtype count value : Nat) : Except PyErr (List Nat) := do
  let t ← packH tag
  let d ← packH dtype
  let c ← packI count
  let v ← packI value
  return t ++ d ++ c ++ v

/-- `SingleNDTiffWriter._get_pixel_buffer(pixels, rgb)` (lines 258–270):
for non-RGB input the pixel buffer is `pixels` itself.  The model does
not carry the contents of a 2-D `uint8` ndarray (the repository always
passes 8-bit data as a `bytearray`), so that case is left out. -/
def _get_pixel_buffer (p : PixelArr) (rgb : Bool) :
    Except PyErr (List Nat) :=
  if rgb then .error (.runtimeError "RGB buffers are not carried by the model")
  else match p with
    | .u16mat rows => .ok (pixelBufU16 rows)
    | .byteArr d => .ok d
    | _ => .error (.runtimeError "uint8 ndarray contents are not carried by the model")

/-- `res_numerator = res_denominator = 1` (ndtiff_file.py lines 55–56). -/
def res_numerator : Nat := 1

/-- See `res_numerator`. -/
def res_denominator : Nat := 1

/-- The writer: the file bytes written so far, the remembered location
of the last next-IFD pointer, and the last component of the file
name. -/
structure WriterState where
  data : List Nat
  next_ifd_offset_location : Nat
  filename : List Nat

/-- `{8: EIGHT_BIT, 10: TEN_BIT, 12: TWELVE_BIT, 14: FOURTEEN_BIT,
16: SIXTEEN_BIT, 11: ELEVEN_BIT}.get(bit_depth, EIGHT_BIT_RGB if rgb
else None)` (lines 237–245); with `bit_depth="auto"` only 8 and 16
occur, so the `None` default is unreachable and mapped to an arbitrary
out-of-range marker. -/
def pixelTypeOfBitDepth (bit_depth : Nat) (rgb : Bool) : Nat :=
  if bit_depth = 8 then 0
  else if bit_depth = 10 then 3
  else if bit_depth = 12 then 4
  else if bit_depth = 14 then 5
  else if bit_depth = 16 then 1
  else if bit_depth = 11 then 6
  else if rgb then 2 else 999

/-- `SingleNDTiffWriter._write_ifd` (ndtiff_file.py lines 169–248) for a
monochrome image, combined with the buffer flush loop of `write_image`
(lines 161–162): the word-alignment pad, the 13-entry IFD, the next-IFD
offset, the two resolution rationals, the pixel buffer and the metadata
bytes are appended to the file in order, and the returned entry records
the pixel and metadata offsets. -/
def _write_ifd (st : WriterState) (index_key : List (List Nat × JVal))
    (pixels : PixelArr) (metadata : List Nat) (rgb : Bool)
    (image_height image_width bit_depth : Nat) :
    Except PyErr (WriterState × NDTiffIndexEntry) := do
  let data0 := if st.data.length % 2 = 1 then st.data ++ [0] else st.data
  let tell := data0.length
  let byte_depth : Nat := match pixels with | .byteArr _ => 1 | _ => 2
  let bpp ← bytes_per_image_pixels pixels rgb
  let next_ifd_offset_location := tell + 2 + 13 * 12
  let bits_per_sample_offset := next_ifd_offset_location + 4
  let x_resolution_offset := bits_per_sample_offset + (if rgb then 6 else 0)
  let y_resolution_offset := x_resolution_offset + 8
  let pixel_data_offset := y_resolution_offset + 8
  let metadata_offset := pixel_data_offset + bpp
  let nio0 := metadata_offset + metadata.length
  let next_ifd_offset := if nio0 % 2 = 1 then nio0 + 1 else nio0
  let e1 ← ifdEntry 256 4 1 image_width
  let e2 ← ifdEntry 257 4 1 image_height
  let e3 ← ifdEntry 258 3 (if rgb then 3 else 1)
    (if rgb then bits_per_sample_offset else byte_depth * 8)
  let e4 ← ifdEntry 259 3 1 1
  let e5 ← ifdEntry 262 3 1 (if rgb then 2 else 1)
  let e6 ← ifdEntry 273 4 1 pixel_data_offset
  let e7 ← ifdEntry 277 3 1 (if rgb then 3 else 1)
  let e8 ← ifdEntry 278 3 1 image_height
  let e9 ← ifdEntry 279 4 1 bpp
  let e10 ← ifdEntry 282 5 1 x_resolution_offset
  let e11 ← ifdEntry 283 5 1 y_resolution_offset
  let e12 ← ifdEntry 296 3 1 3
  let e13 ← ifdEntry 51123 2 metadata.length metadata_offset
  let nio ← packI next_ifd_offset
  let bps : List Nat := if rgb
    then u16le (byte_depth * 8) ++ u16le (byte_depth * 8)
      ++ u16le (byte_depth * 8)
    else []
  let res := u32le res_numerator ++ u32le res_denominator
    ++ u32le res_numerator ++ u32le res_denominator
  let ifdBuf := u16le 13 ++ e1 ++ e2 ++ e3 ++ e4 ++ e5 ++ e6 ++ e7 ++ e8
    ++ e9 ++ e10 ++ e11 ++ e12 ++ e13 ++ nio ++ bps ++ res
  let pixBuf ← _get_pixel_buffer pixels rgb
  let pixel_type := pixelTypeOfBitDepth bit_depth rgb
  let st2 : WriterState :=
    { data := data0 ++ ifdBuf ++ pixBuf ++ metadata
      next_ifd_offset_location := next_ifd_offset_location
      filename := st.filename }
  return (st2, mkEntry (.fset index_key) pixel_type pixel_data_offset
    image_width image_height metadata_offset metadata.length st.filename)

/-- `SingleNDTiffWriter.write_image(index_key, pixels, metadata)`
(ndtiff_file.py lines 135–166) with `bit_depth="auto"` and a metadata
dict: unpack `pixels.shape`, compute the RGB flag and bit depth, JSON-
serialize the metadata and delegate to `_write_ifd`. -/
def write_image (st : WriterState) (index_key : List (List Nat × JVal))
    (pixels : PixelArr) (metadata : List (List Nat × JVal)) :
    Except PyErr (WriterState × NDTiffIndexEntry) := do
  let hw ← shape2 pixels
  let rgb ← isRgbCheck pixels
  let bit_depth : Nat := if dtypeIsU8 pixels then 8 else 16
  let md := encObj metadata
  _write_ifd st index_key pixels md rgb hw.1 hw.2 bit_depth

/-- Overwrite `patch.length` bytes of `data` at `pos` in place
(`file.seek(pos); file.write(patch)` inside the written region). -/
def setBytes (data : List Nat) (pos : Nat) (patch : List Nat) :
    List Nat :=
  data.take pos ++ patch ++ data.drop (pos + patch.length)

/-- `finished_writing()` (lines 121–133): write four zero bytes at the
remembered next-IFD offset location, truncate the pre-allocated file at
the current position (the model never holds the pre-allocated tail) and
close. -/
def finished_writing (st : WriterState) : WriterState :=
  { st with data := setBytes st.data st.next_ifd_offset_location (u32le 0) }

/-- `SingleNDTiffReader._read(start, end)` (lines 345–350):
`data[start:end]`. -/
def _read (data : List Nat) (start stop : Nat) : List Nat :=
  sliceBytes data start (stop - start)

/-- `np.frombuffer(data, dtype=np.uint16)` on a little-endian host:
pairs of bytes, low byte first; raises for a buffer of odd length. -/
def u16OfBytes : List Nat → List Nat
  | b0 :: b1 :: rest => (b0 + 256 * b1) :: u16OfBytes rest
  | _ => []

/-- See `u16OfBytes`. -/
def fromBufferU16 (raw : List Nat) : Except PyErr (List Nat) :=
  if raw.length % 2 = 0 then .ok (u16OfBytes raw) else .error .valueError

/-- Row-major chunking of a flat buffer into `h` rows of `w` elements
(`ndarray.reshape([h, w])`). -/
def chunkRows (flat : List Nat) (h w : Nat) : List (List Nat) :=
  match h with
  | 0 => []
  | hh + 1 => flat.take w :: chunkRows (flat.drop w) hh w

/-- `pixels.reshape([height, width])`: raises `ValueError` when the
element count does not match. -/
def reshape2 (flat : List Nat) (h w : Nat) :
    Except PyErr (List (List Nat)) :=
  if flat.length = h * w then .ok (chunkRows flat h w)
  else .error .valueError

/-- The decoded image: 16-bit rows, 8-bit rows, or `h × w × 3` RGB. -/
inductive PixelImage where
  | mono16 (rows : List (List Nat))
  | mono8 (rows : List (List Nat))
  | rgbImg (rows : List (List (List Nat)))
deriving DecidableEq

/-- `SingleNDTiffReader.read_image(index_entry)` (lines 373–394). -/
def read_image (data : List Nat) (e : NDTiffIndexEntry) :
    Except PyErr PixelImage := do
  if e.pixel_type = 2 then
    let raw := _read data e.pix_offset
      (e.pix_offset + e.image_width * e.image_height * 3)
    if raw.length = e.image_height * (e.image_width * 3) then
      return .rgbImg ((chunkRows raw e.image_height (e.image_width * 3)).map
        (fun row => chunkRows row e.image_width 3))
    else .error .valueError
  else if e.pixel_type = 0 then
    let raw := _read data e.pix_offset
      (e.pix_offset + e.image_width * e.image_height * 1)
    let flat ← reshape2 raw e.image_height e.image_width
    return .mono8 flat
  else if e.pixel_type = 1 ∨ e.pixel_type = 3 ∨ e.pixel_type = 4
      ∨ e.pixel_type = 5 ∨ e.pixel_type = 6 then
    let raw := _read data e.pix_offset
      (e.pix_offset + e.image_width * e.image_height * 2)
    let vals ← fromBufferU16 raw
    let rows ← reshape2 vals e.image_height e.image_width
    return .mono16 rows
  else .error (.runtimeError "unrecognized pixel type")

/-- `SingleNDTiffReader.read_metadata(index)` (lines 366–371):
`json.loads` of the metadata byte range. -/
def read_metadata (data : List Nat) (e : NDTiffIndexEntry) :
    Except PyErr (List (List Nat × JVal)) :=
  match parseObjAll (_read data e.metadata_offset
      (e.metadata_offset + e.metadata_length)) with
  | some m => .ok m
  | none => .error .valueError

/-- **C1**: `write_image` on a `bytearray` pixel buffer fails
immediately: its first statement
`image_height, image_width = pixels.shape` raises `AttributeError`
because a Python `bytearray` has no `shape` attribute, even though the
docstring advertises `pixels : np.ndarray or bytearray`.  No index
entry is produced, so the round trip claimed for bytearray input never
starts. -/
theorem C1_write_image_bytearray_crashes (st : WriterState)
    (index_key : List (List Nat × JVal)) (d : List Nat)
    (metadata : List (List Nat × JVal)) :
    write_image st index_key (.byteArr d) metadata
      = .error .attributeError := by
  simp [write_image, shape2, bind, Except.bind]

end NDStorage
